import Mathlib

/-!
# CAStle: parser tree building, the Restructurer visitor, the simplification driver,
the number renderer and the digit array

A shallow embedding of

* `src/CAS/creation/Parser.cpp` (`Parser::parse`, `Parser::buildExpression`),
* `src/CAS/visiting/restructuring/Restructurer.h`,
* `src/interface/interface.cpp` (`reduce`, `simplify`, `Rendered`, `render`),
* `src/Utilities/Numbers/BaseArray.cpp` (the window of a digit array and the operations
  that move it).

Conventions.  `Expression::Ptr` is a shared pointer that may be empty; it is
`Option E`, with `none` the empty pointer.  A `std::stack` is a list whose head is
the top.  Collaborators whose code is outside these files (number formatter,
Builder, tokenizer, the rewriting passes) are parameters.
-/

namespace CAStle

/-! ## Shared data -/

/-- `Expression::Ptr`: a shared pointer to an expression, possibly empty (`none`). -/
abbrev Ptr (E : Type) := Option E

/-- Entries of the sign vector of an `Add` node. -/
inductive Sign where
  | plus
  | minus
deriving DecidableEq, Repr

/-- The part of `Expressions::Builder` (Builder.hpp) that the embedded code calls.
`E` is the expression type, `N` the number type. -/
structure Builder (N E : Type) where
  /-- `literal(Number)`. -/
  literal : N → Ptr E
  /-- `add(const vector<Expression::Ptr>&, const vector<Sign>&)`. -/
  add : List (Ptr E) → List Sign → Ptr E
  /-- `operator()(const string& name, const vector<Expression::Ptr>& children)`. -/
  call : String → List (Ptr E) → Ptr E

/-! ## Parser.cpp : commands and `buildExpression` -/

/-- `Command::literal` / `Command::symbol`, the two node types `buildExpression`
switches on (its `default:` branch is for values outside the enumeration). -/
inductive NodeType where
  | literal
  | symbol
deriving DecidableEq, Repr

/-- One entry of the Reverse-Polish command stream (`getNodeType`, `getNodeName`,
`getNumberOfChildren`). -/
structure Command where
  nodeType : NodeType
  nodeName : String
  numberOfChildren : Nat
deriving DecidableEq, Repr

/-- Local variables of `buildExpression` that live across loop iterations:
`expStack` (head = top) and the scratch vector `children`. -/
structure BuildState (E : Type) where
  expStack : List (Ptr E)
  children : List (Ptr E)

/-- State on entry to the loop: both containers empty. -/
def BuildState.init {E : Type} : BuildState E := ⟨[], []⟩

/-- The inner `for` loop of the `symbol` case (Parser.cpp lines 60-65), run for `k`
iterations: each iteration fails (`none`, the function returns the empty pointer)
on an empty stack and otherwise pops the top and inserts it at the front of
`children`.  Result: remaining stack and filled `children`. -/
def popChildren {E : Type} : Nat → List (Ptr E) → List (Ptr E) →
    Option (List (Ptr E) × List (Ptr E))
  | 0, expStack, children => some (expStack, children)
  | _ + 1, [], _ => none
  | k + 1, top :: rest, children => popChildren k rest (top :: children)

/-- One iteration of the outer loop of `buildExpression` (the `switch`).  `none`
means the function returned the empty pointer from inside the loop. -/
def buildStep {N E : Type} (format : String → Option N) (eBuilder : Builder N E)
    (st : BuildState E) (c : Command) : Option (BuildState E) :=
  match c.nodeType with
  | .literal =>
    match format c.nodeName with
    | none => none
    | some number => some { st with expStack := eBuilder.literal number :: st.expStack }
  | .symbol =>
    match popChildren c.numberOfChildren st.expStack st.children with
    | none => none
    | some (expStack, children) =>
      match eBuilder.call c.nodeName children with
      | none => none
      | some node => some { expStack := some node :: expStack, children := [] }

/-- The outer loop of `buildExpression` over the command list. -/
def buildLoop {N E : Type} (format : String → Option N) (eBuilder : Builder N E) :
    List Command → BuildState E → Option (BuildState E)
  | [], st => some st
  | c :: cs, st =>
    match buildStep format eBuilder st c with
    | none => none
    | some st1 => buildLoop format eBuilder cs st1

/-- `Parser::buildExpression`: run the loop, then require exactly one stack entry
and return the top. -/
def buildExpression {N E : Type} (format : String → Option N) (eBuilder : Builder N E)
    (commands : List Command) : Ptr E :=
  match buildLoop format eBuilder commands BuildState.init with
  | none => none
  | some st =>
    if st.expStack.length ≠ 1 then none
    else match st.expStack with
      | [] => none
      | top :: _ => top

/-- Stack depth after a command list, by the Reverse-Polish rule alone: a literal
adds one value, a symbol of arity `k` needs `k` values and replaces them by one.
`none` when some symbol finds fewer values than its arity. -/
def rpnDepth : List Command → Nat → Option Nat
  | [], d => some d
  | c :: cs, d =>
    match c.nodeType with
    | .literal => rpnDepth cs (d + 1)
    | .symbol => if c.numberOfChildren ≤ d then rpnDepth cs (d - c.numberOfChildren + 1) else none

/-- Well-formed Reverse-Polish command list: every symbol finds enough values and
exactly one value is left at the end. -/
def wellFormedRPN (commands : List Command) : Prop := rpnDepth commands 0 = some 1

instance (commands : List Command) : Decidable (wellFormedRPN commands) := by
  unfold wellFormedRPN; infer_instance

/-! ## Parser.cpp : `Parser::parse` -/

/-- The fields of the parser object that change after construction: the scanner list
and `stopLocation` (an iterator into the source, kept as an offset from
`source.begin()`).  The other fields are the four collaborator pointers the constructor
sets. -/
structure ParserState (S : Type) where
  scanners : List S
  stopLocation : Nat

/-- What `tokenizer->tokenizePriority(source, scanners, tokens)` leaves behind: its
boolean result, the token vector it filled, and the value `getStopLocation()`
returns afterwards. -/
structure TokenizeResult (T : Type) where
  success : Bool
  tokens : List T
  stopLocation : Nat

/-- Collaborators of `Parser::parse` whose code is outside Parser.cpp. -/
structure ParserDeps (S T N E : Type) where
  /-- `buildScanners(scanners, sBuilder)`, virtual, fills the scanner list. -/
  buildScanners : List S → List S
  /-- `tokenizer->tokenizePriority` together with `getStopLocation`. -/
  tokenizePriority : String → List S → TokenizeResult T
  /-- `parseTokens(tokens, commands)`, a virtual member function: success flag, the
  commands written, and the parser's fields as it leaves them. -/
  parseTokens : ParserState S → List T → Bool × List Command × ParserState S
  /-- `nFormatter->format`; `none` is the null pointer. -/
  format : String → Option N
  eBuilder : Builder N E

/-- The scanner list after the first two lines of `parse`. -/
def scannersFor {S T N E : Type} (deps : ParserDeps S T N E) (st : ParserState S) : List S :=
  if st.scanners.isEmpty then deps.buildScanners st.scanners else st.scanners

/-- `Parser::parse`: returns the expression pointer and the parser's fields after
the call. -/
def parse {S T N E : Type} (deps : ParserDeps S T N E) (st : ParserState S) (source : String) :
    Ptr E × ParserState S :=
  let scanners := scannersFor deps st
  -- stopLocation = source.begin()
  let st1 : ParserState S := { scanners := scanners, stopLocation := 0 }
  let tok := deps.tokenizePriority source scanners
  if !tok.success then
    (none, { st1 with stopLocation := tok.stopLocation })
  else
    let parsed := deps.parseTokens st1 tok.tokens
    if !parsed.1 then (none, parsed.2.2)
    else (buildExpression deps.format deps.eBuilder parsed.2.1, parsed.2.2)

/-! ## The expression tree -/

/-- Modelled from the spec: the node classes (`Literal`, `Symbol`, `Add`, `Multiply`,
`Negate`, `Divide`, `Modulus`, `Power`, `Factorial`) are declared in headers that are
not among the sources; this is the data model of spec section 3.2, a tagged tree with
one constructor per kind, the payload and the ordered children of each kind. -/
inductive Expr (N : Type) where
  | literal (number : N)
  | symbol (name : String) (children : List (Expr N))
  | add (children : List (Expr N)) (signs : List Sign)
  | multiply (children : List (Expr N))
  | negate (child : Expr N)
  | divide (top bottom : Expr N)
  | modulus (top bottom : Expr N)
  | power (base exponent : Expr N)
  | factorial (child : Expr N)

/-- `Expression::getChildVector` (Expression.cpp): the children in order. -/
def Expr.getChildVector {N : Type} : Expr N → List (Expr N)
  | .literal _ => []
  | .symbol _ cs => cs
  | .add cs _ => cs
  | .multiply cs => cs
  | .negate c => [c]
  | .divide t b => [t, b]
  | .modulus t b => [t, b]
  | .power b e => [b, e]
  | .factorial c => [c]

/-- `Expression::numberOfChildren`. -/
def Expr.numberOfChildren {N : Type} (e : Expr N) : Nat := e.getChildVector.length

/-- The eight names the Builder's generic call reserves for algebraic nodes. -/
def reservedNames : List String := ["+", "-", "*", "/", "%", "^", "!", "ng"]

mutual
/-- No `Symbol` node of the tree carries one of the reserved names. -/
def Expr.noReservedSymbol {N : Type} : Expr N → Bool
  | .literal _ => true
  | .symbol name cs => !(reservedNames.contains name) && noReservedSymbolList cs
  | .add cs _ => noReservedSymbolList cs
  | .multiply cs => noReservedSymbolList cs
  | .negate c => c.noReservedSymbol
  | .divide t b => t.noReservedSymbol && b.noReservedSymbol
  | .modulus t b => t.noReservedSymbol && b.noReservedSymbol
  | .power b e => b.noReservedSymbol && e.noReservedSymbol
  | .factorial c => c.noReservedSymbol
/-- `Expr.noReservedSymbol` for every tree of a list. -/
def noReservedSymbolList {N : Type} : List (Expr N) → Bool
  | [] => true
  | c :: cs => c.noReservedSymbol && noReservedSymbolList cs
end

mutual
/-- The invariants of spec section 3.2 on a tree: `Add` and `Multiply` have two or
more children, an `Add` has as many signs as children (the other arities are fixed by
the constructors), at every node. -/
def Expr.wellFormed {N : Type} : Expr N → Bool
  | .literal _ => true
  | .symbol _ cs => wellFormedList cs
  | .add cs signs => decide (2 ≤ cs.length) && decide (cs.length = signs.length) && wellFormedList cs
  | .multiply cs => decide (2 ≤ cs.length) && wellFormedList cs
  | .negate c => c.wellFormed
  | .divide t b => t.wellFormed && b.wellFormed
  | .modulus t b => t.wellFormed && b.wellFormed
  | .power b e => b.wellFormed && e.wellFormed
  | .factorial c => c.wellFormed
/-- `Expr.wellFormed` for every tree of a list. -/
def wellFormedList {N : Type} : List (Expr N) → Bool
  | [] => true
  | c :: cs => c.wellFormed && wellFormedList cs
end

/-- All pointers of a child vector are non-empty: the trees they point to. -/
def nonEmptyChildren {E : Type} : List (Ptr E) → Option (List E)
  | [] => some []
  | none :: _ => none
  | some e :: rest => (nonEmptyChildren rest).map (e :: ·)

/-- Modelled from the spec: the implementation of `Builder::operator()` and the
standard Builder are not among the sources; this is the Builder of spec section 4.3.
`literal` wraps the number, `add` given a sign vector stores it as provided, and the
generic call dispatches on the name: the eight reserved names construct the
corresponding algebraic node (`+` an all-plus `Add`, `-` the `Add` with signs `[+,-]`),
any other name a `Symbol` node with the given children.  The spec leaves open what a
reserved name does with a child count that does not fit its node and what an empty
child pointer does; both give the empty result here. -/
def Standard (N : Type) : Builder N (Expr N) where
  literal := fun number => some (.literal number)
  add := fun children signs => (nonEmptyChildren children).map fun cs => .add cs signs
  call := fun name children =>
    match nonEmptyChildren children with
    | none => none
    | some cs =>
      if name = "+" then some (.add cs (cs.map fun _ => Sign.plus))
      else if name = "-" then
        match cs with
        | [l, r] => some (.add [l, r] [Sign.plus, Sign.minus])
        | _ => none
      else if name = "*" then some (.multiply cs)
      else if name = "/" then
        match cs with
        | [t, b] => some (.divide t b)
        | _ => none
      else if name = "%" then
        match cs with
        | [t, b] => some (.modulus t b)
        | _ => none
      else if name = "^" then
        match cs with
        | [b, e] => some (.power b e)
        | _ => none
      else if name = "!" then
        match cs with
        | [c] => some (.factorial c)
        | _ => none
      else if name = "ng" then
        match cs with
        | [c] => some (.negate c)
        | _ => none
      else some (.symbol name cs)

/-! ## Restructurer.h -/

/-- Modelled from the spec: `getPop` of Utilities/Templates.h is not among the sources;
it returns the top of a stack and removes it.  An empty stack has no top: `none`. -/
def getPop {α : Type} : List α → Option (α × List α)
  | [] => none
  | top :: rest => some (top, rest)

/-- The `for` loop of `Restructurer::getChildren` from counter value `i`:
`children[nc-i-1] = getPop(childResults)`. -/
def getChildrenLoop {E : Type} (nc i : Nat) (children childResults : List (Ptr E)) :
    Option (List (Ptr E) × List (Ptr E)) :=
  if i < nc then
    match getPop childResults with
    | none => none
    | some (top, rest) => getChildrenLoop nc (i + 1) (children.set (nc - i - 1) top) rest
  else some (children, childResults)
termination_by nc - i

/-- `Restructurer::getChildren` for a node with `nc` children: a vector of `nc` empty
pointers filled from the back by `nc` pops.  Result: the vector and the stack left;
`none` when a pop meets an empty stack. -/
def getChildren {E : Type} (nc : Nat) (childResults : List (Ptr E)) :
    Option (List (Ptr E) × List (Ptr E)) :=
  getChildrenLoop nc 0 (List.replicate nc none) childResults

/-- The nine protected virtual methods of `Restructurer`, the points a rewriting pass
overrides.  Each receives the node (as its payload and children) and the collected
child results, and returns the pointer to push. -/
structure Restructurer (N : Type) where
  add : List (Expr N) → List Sign → List (Ptr (Expr N)) → Ptr (Expr N)
  divide : Expr N → Expr N → List (Ptr (Expr N)) → Ptr (Expr N)
  factorial : Expr N → List (Ptr (Expr N)) → Ptr (Expr N)
  literal : N → List (Ptr (Expr N)) → Ptr (Expr N)
  modulus : Expr N → Expr N → List (Ptr (Expr N)) → Ptr (Expr N)
  multiply : List (Expr N) → List (Ptr (Expr N)) → Ptr (Expr N)
  negate : Expr N → List (Ptr (Expr N)) → Ptr (Expr N)
  power : Expr N → Expr N → List (Ptr (Expr N)) → Ptr (Expr N)
  symbol : String → List (Expr N) → List (Ptr (Expr N)) → Ptr (Expr N)

/-- The default bodies of the nine methods (Restructurer.h lines 90-125): rebuild the
node through the Builder. -/
def Restructurer.default {N : Type} (eBuilder : Builder N (Expr N)) : Restructurer N where
  add := fun _ signs children => eBuilder.add children signs
  divide := fun _ _ children => eBuilder.call "/" children
  factorial := fun _ children => eBuilder.call "!" children
  literal := fun number _ => eBuilder.literal number
  modulus := fun _ _ children => eBuilder.call "%" children
  multiply := fun _ children => eBuilder.call "*" children
  negate := fun _ children => eBuilder.call "ng" children
  power := fun _ _ children => eBuilder.call "^" children
  symbol := fun name _ children => eBuilder.call name children

/-- The common body of the nine `visit*` methods: `childResults.push(m(exp,
getChildren(exp)))`.  Every one of them then returns `true`, so the success flag is
constant and not carried; `none` is a pop from an empty stack. -/
def visitWith {N : Type} (exp : Expr N) (m : List (Ptr (Expr N)) → Ptr (Expr N))
    (childResults : List (Ptr (Expr N))) : Option (List (Ptr (Expr N))) :=
  match getChildren exp.numberOfChildren childResults with
  | none => none
  | some (children, rest) => some (m children :: rest)

/-- `Restructurer::visitAdd`. -/
def visitAdd {N : Type} (R : Restructurer N) (cs : List (Expr N)) (signs : List Sign) :=
  visitWith (.add cs signs) (R.add cs signs)

/-- `Restructurer::visitDivide`. -/
def visitDivide {N : Type} (R : Restructurer N) (t b : Expr N) :=
  visitWith (.divide t b) (R.divide t b)

/-- `Restructurer::visitFactorial`. -/
def visitFactorial {N : Type} (R : Restructurer N) (c : Expr N) :=
  visitWith (.factorial c) (R.factorial c)

/-- `Restructurer::visitLiteral`. -/
def visitLiteral {N : Type} (R : Restructurer N) (number : N) :=
  visitWith (.literal number) (R.literal number)

/-- `Restructurer::visitModulus`. -/
def visitModulus {N : Type} (R : Restructurer N) (t b : Expr N) :=
  visitWith (.modulus t b) (R.modulus t b)

/-- `Restructurer::visitMultiply`. -/
def visitMultiply {N : Type} (R : Restructurer N) (cs : List (Expr N)) :=
  visitWith (.multiply cs) (R.multiply cs)

/-- `Restructurer::visitNegate`. -/
def visitNegate {N : Type} (R : Restructurer N) (c : Expr N) :=
  visitWith (.negate c) (R.negate c)

/-- `Restructurer::visitPower`. -/
def visitPower {N : Type} (R : Restructurer N) (b e : Expr N) :=
  visitWith (.power b e) (R.power b e)

/-- `Restructurer::visitSymbol`. -/
def visitSymbol {N : Type} (R : Restructurer N) (name : String) (cs : List (Expr N)) :=
  visitWith (.symbol name cs) (R.symbol name cs)

/-- Double dispatch: the visit method the node's kind selects. -/
def visitNode {N : Type} (R : Restructurer N) :
    Expr N → List (Ptr (Expr N)) → Option (List (Ptr (Expr N)))
  | .literal number => visitLiteral R number
  | .symbol name cs => visitSymbol R name cs
  | .add cs signs => visitAdd R cs signs
  | .multiply cs => visitMultiply R cs
  | .negate c => visitNegate R c
  | .divide t b => visitDivide R t b
  | .modulus t b => visitModulus R t b
  | .power b e => visitPower R b e
  | .factorial c => visitFactorial R c

mutual
/-- Modelled from the spec: `Visitor::visitExpression` and the nodes' dispatch are not
among the sources; by spec section 4.4 the children are visited in order, left to
right, depth first, and after them the node's own visit method is called. -/
def visitExpression {N : Type} (R : Restructurer N) :
    Expr N → List (Ptr (Expr N)) → Option (List (Ptr (Expr N)))
  | .literal number, s => visitLiteral R number s
  | .symbol name cs, s => (visitChildren R cs s).bind (visitSymbol R name cs)
  | .add cs signs, s => (visitChildren R cs s).bind (visitAdd R cs signs)
  | .multiply cs, s => (visitChildren R cs s).bind (visitMultiply R cs)
  | .negate c, s => (visitExpression R c s).bind (visitNegate R c)
  | .divide t b, s =>
    ((visitExpression R t s).bind (visitExpression R b)).bind (visitDivide R t b)
  | .modulus t b, s =>
    ((visitExpression R t s).bind (visitExpression R b)).bind (visitModulus R t b)
  | .power b e, s =>
    ((visitExpression R b s).bind (visitExpression R e)).bind (visitPower R b e)
  | .factorial c, s => (visitExpression R c s).bind (visitFactorial R c)
/-- The children of a node visited left to right. -/
def visitChildren {N : Type} (R : Restructurer N) :
    List (Expr N) → List (Ptr (Expr N)) → Option (List (Ptr (Expr N)))
  | [], s => some s
  | c :: cs, s => (visitExpression R c s).bind (visitChildren R cs)
end

/-- `Restructurer::reset`: clear the stack. -/
def reset {E : Type} (_childResults : List (Ptr E)) : List (Ptr E) := []

/-- `Restructurer::result`: `logic_error` unless the stack holds exactly one entry,
else that entry, popped. -/
def result {E : Type} (childResults : List (Ptr E)) : Except String (Ptr E × List (Ptr E)) :=
  if childResults.length ≠ 1 then
    .error "childResults.size() != 1 in Expressions::Visitors::Restructurer::result"
  else
    match getPop childResults with
    | none => .error "childResults.size() != 1 in Expressions::Visitors::Restructurer::result"
    | some popped => .ok popped

/-- `reduce<T>` of interface.cpp for a visitor `R`: a fresh visitor (empty stack)
visits `exp`, then `result()`.  The outer `Option` is `none` for a pop from an empty
stack; the `Except` carries the `logic_error` of `result`. -/
def reduce {N : Type} (R : Restructurer N) (exp : Expr N) : Option (Except String (Ptr (Expr N))) :=
  (visitExpression R exp []).map fun childResults => (result childResults).map Prod.fst

/-! ## interface.cpp : `simplify` -/

/-- The eleven rewriting passes `simplify` instantiates `reduce` with, each taken as
a function on expressions (their classes are outside the sources). -/
structure Passes (E : Type) where
  BasicSymbols : E → E
  ComplexSplitter : E → E
  Rationalizer : E → E
  ComplexNormalizer : E → E
  GCDLiteral : E → E
  SizeOneArray : E → E
  SelfNesting : E → E
  Negatives : E → E
  FirstOrderBasic : E → E
  NumberReducerBasic : E → E
  ComplexExpander : E → E

/-- The body of the `for` loop of `simplify` (interface.cpp lines 88-94). -/
def loopBody {E : Type} (P : Passes E) (res : E) : E :=
  let res := P.ComplexNormalizer res
  let res := P.GCDLiteral res
  let res := P.SizeOneArray res
  let res := P.SelfNesting res
  let res := P.Negatives res
  let res := P.FirstOrderBasic res
  let res := P.NumberReducerBasic res
  res

/-- The loop body as the spec's composition formula reads it, innermost first:
`ComplexNormalizer ∘ GCDLiteral ∘ SizeOneArray ∘ SelfNesting ∘ Negatives ∘
FirstOrderBasic ∘ NumberReducerBasic` applied to `res`. -/
def specLoopBody {E : Type} (P : Passes E) (res : E) : E :=
  (P.ComplexNormalizer ∘ P.GCDLiteral ∘ P.SizeOneArray ∘ P.SelfNesting ∘ P.Negatives
    ∘ P.FirstOrderBasic ∘ P.NumberReducerBasic) res

/-- The loop `for (int k = 0; k < 20; k++)` from counter value `k`. -/
def simplifyLoop {E : Type} (P : Passes E) (k : Nat) (res : E) : E :=
  if k < 20 then simplifyLoop P (k + 1) (loopBody P res) else res
termination_by 20 - k

/-- `simplify` of interface.cpp. -/
def simplify {E : Type} (P : Passes E) (exp : E) : E :=
  let res := P.BasicSymbols exp
  let res := P.ComplexSplitter res
  let res := P.Rationalizer res
  let res := simplifyLoop P 0 res
  let res := P.ComplexExpander res
  let res := P.ComplexSplitter res
  let res := P.ComplexNormalizer res
  let res := P.GCDLiteral res
  let res := P.SizeOneArray res
  let res := P.SelfNesting res
  let res := P.Negatives res
  res

/-- Passes that record their own name: the expression is the list of the passes
applied so far, oldest first. -/
def tracePasses : Passes (List String) where
  BasicSymbols := fun t => t ++ ["BasicSymbols"]
  ComplexSplitter := fun t => t ++ ["ComplexSplitter"]
  Rationalizer := fun t => t ++ ["Rationalizer"]
  ComplexNormalizer := fun t => t ++ ["ComplexNormalizer"]
  GCDLiteral := fun t => t ++ ["GCDLiteral"]
  SizeOneArray := fun t => t ++ ["SizeOneArray"]
  SelfNesting := fun t => t ++ ["SelfNesting"]
  Negatives := fun t => t ++ ["Negatives"]
  FirstOrderBasic := fun t => t ++ ["FirstOrderBasic"]
  NumberReducerBasic := fun t => t ++ ["NumberReducerBasic"]
  ComplexExpander := fun t => t ++ ["ComplexExpander"]

/-- The names of the seven passes of the loop body in the order the source applies
them. -/
def loopBodyNames : List String :=
  ["ComplexNormalizer", "GCDLiteral", "SizeOneArray", "SelfNesting", "Negatives",
   "FirstOrderBasic", "NumberReducerBasic"]

/-! ## interface.cpp : `Rendered` and `render(Number)` -/

/-- `struct Rendered`. -/
structure Rendered where
  one_line : String
  grid : List String
deriving DecidableEq, Repr

/-- The constructor `Rendered(std::string const& s)`: `one_line(s)`, `grid({s})`. -/
def Rendered.ofString (s : String) : Rendered := { one_line := s, grid := [s] }

/-- The operations of the external Number interface that `render` uses. -/
structure NumberOps (N : Type) where
  formatRealPart : N → String
  formatImaginaryPart : N → String
  exchangeRealAndImaginary : N → N
  makeRealPart : N → N
  isPositiveReal : N → Bool

/-- `render(Proxy::NumberP const&)` of interface.cpp (lines 143-162). -/
def render {N : Type} (F : NumberOps N) (_n : N) : Rendered :=
  let n := _n
  let realPart := F.formatRealPart n
  let imaginaryPart := F.formatImaginaryPart n
  let imaginaryPart := if imaginaryPart = "1" then "i" else imaginaryPart
  let imaginaryPart := if imaginaryPart = "-1" then "-i" else imaginaryPart
  let imaginaryPart := if imaginaryPart ≠ "0" then imaginaryPart ++ "i" else imaginaryPart
  if imaginaryPart = "0" then Rendered.ofString realPart
  else if realPart = "0" then Rendered.ofString imaginaryPart
  else
    let n := F.exchangeRealAndImaginary n
    let n := F.makeRealPart n
    Rendered.ofString (realPart ++ (if F.isPositiveReal n then "+" else "") ++ imaginaryPart)

/-- Gaussian integers as a small instance of the Number interface: the parts format
in decimal. -/
def gaussianOps : NumberOps (Int × Int) where
  formatRealPart := fun n => toString n.1
  formatImaginaryPart := fun n => toString n.2
  exchangeRealAndImaginary := fun n => (n.2, n.1)
  makeRealPart := fun n => (n.1, 0)
  isPositiveReal := fun n => decide (0 < n.1) && decide (n.2 = 0)

/-! ## Small concrete collaborators, for running the definitions -/

/-- A Builder on strings that accepts everything and spells out what it was given. -/
def echoBuilder : Builder String String where
  literal := fun number => some number
  add := fun children _ => some (String.intercalate "+" (children.map fun c => c.getD "?"))
  call := fun name children =>
    some (name ++ "(" ++ String.intercalate "," (children.map fun c => c.getD "?") ++ ")")

/-- A Builder on strings that accepts every symbol, like `echoBuilder`, but whose
`literal` returns the empty pointer. -/
def emptyLiteralBuilder : Builder String String where
  literal := fun _ => none
  add := echoBuilder.add
  call := echoBuilder.call

/-- A number formatter on strings that rejects the literal `?` and accepts every other
one. -/
def rejectQuestionMark (s : String) : Option String := if s = "?" then none else some s

/-- A tokenizer over one-character scanners, for concrete runs of `parse`: it walks the
input, takes each character that is one of the scanners as a token, and fails at the
first position where no scanner matches, reporting that position. -/
def charTokenize (scanners : List Char) : List Char → Nat → List Char → TokenizeResult Char
  | [], pos, tokens => { success := true, tokens := tokens.reverse, stopLocation := pos }
  | c :: rest, pos, tokens =>
    if scanners.contains c then charTokenize scanners rest (pos + 1) (c :: tokens)
    else { success := false, tokens := tokens.reverse, stopLocation := pos }

/-- Collaborators for concrete runs of `parse`: scanners `1`, `+`, `x`, the
one-character tokenizer, every token taken as a literal command, an accepting
formatter and the echoing Builder. -/
def charDeps : ParserDeps Char Char String String where
  buildScanners := fun _ => ['1', '+', 'x']
  tokenizePriority := fun source scanners => charTokenize scanners source.data 0 []
  parseTokens := fun st tokens =>
    (true, tokens.map fun c => ⟨NodeType.literal, c.toString, 0⟩, st)
  format := fun s => some s
  eBuilder := echoBuilder

/-- The collaborators `charDeps` with a number formatter that rejects the literal
`x`. -/
def charDepsRejectX : ParserDeps Char Char String String :=
  { charDeps with format := fun s => if s = "x" then none else some s }

/-- The loop of `simplify` in the variant spec section 4.6 allows, from counter value
`k`: it leaves the loop as soon as one full run of the seven-pass body returns a tree
identical to the tree it was given. -/
def earlyExitLoop {E : Type} [DecidableEq E] (P : Passes E) (k : Nat) (res : E) : E :=
  if k < 20 then
    if loopBody P res = res then res
    else earlyExitLoop P (k + 1) (loopBody P res)
  else res
termination_by 20 - k

/-- The variant of `simplify` with the early exit: the same passes before and after the
loop, `earlyExitLoop` in place of the loop. -/
def simplifyEarlyExit {E : Type} [DecidableEq E] (P : Passes E) (exp : E) : E :=
  let res := P.BasicSymbols exp
  let res := P.ComplexSplitter res
  let res := P.Rationalizer res
  let res := earlyExitLoop P 0 res
  let res := P.ComplexExpander res
  let res := P.ComplexSplitter res
  let res := P.ComplexNormalizer res
  let res := P.GCDLiteral res
  let res := P.SizeOneArray res
  let res := P.SelfNesting res
  let res := P.Negatives res
  res

mutual
/-- The Add invariant on a tree: every `Add` node has as many signs as children. -/
def Expr.addInvariant {N : Type} : Expr N → Bool
  | .literal _ => true
  | .symbol _ cs => addInvariantList cs
  | .add cs signs => decide (cs.length = signs.length) && addInvariantList cs
  | .multiply cs => addInvariantList cs
  | .negate c => c.addInvariant
  | .divide t b => t.addInvariant && b.addInvariant
  | .modulus t b => t.addInvariant && b.addInvariant
  | .power b e => b.addInvariant && e.addInvariant
  | .factorial c => c.addInvariant
/-- `Expr.addInvariant` for every tree of a list. -/
def addInvariantList {N : Type} : List (Expr N) → Bool
  | [] => true
  | c :: cs => c.addInvariant && addInvariantList cs
end

/-- The Add invariant on a pointer: an empty pointer has no `Add` node. -/
def ptrAddInvariant {N : Type} : Ptr (Expr N) → Bool
  | none => true
  | some e => e.addInvariant

/-- An expression tree as the parser's commands describe it: a literal with its text,
or a node with a name and its children in order. -/
inductive CommandTree where
  | literal (text : String)
  | symbol (name : String) (children : List CommandTree)

mutual
/-- Post-order linearisation of a tree: the commands of the children, left to right,
then the node's own command (a literal command with the text, or a symbol command with
the name and the number of children as arity). -/
def CommandTree.linearise : CommandTree → List Command
  | .literal text => [⟨NodeType.literal, text, 0⟩]
  | .symbol name cs => lineariseList cs ++ [⟨NodeType.symbol, name, cs.length⟩]
/-- The linearisations of a list of trees, concatenated in order. -/
def lineariseList : List CommandTree → List Command
  | [] => []
  | c :: cs => c.linearise ++ lineariseList cs
end

mutual
/-- The proviso of the round trip at every node of a tree `t`, for an interpretation
`toExpr` of trees as expressions: the formatter maps each literal's text to a number from
which the Builder makes that literal, and the Builder's generic call, given a node's name
and its children, constructs exactly that node. -/
def Rebuilds {N E : Type} (format : String → Option N) (eBuilder : Builder N E)
    (toExpr : CommandTree → E) : CommandTree → Prop
  | .literal text =>
    ∃ number, format text = some number
      ∧ eBuilder.literal number = some (toExpr (.literal text))
  | .symbol name cs =>
    eBuilder.call name (cs.map fun c => some (toExpr c)) = some (toExpr (.symbol name cs))
      ∧ RebuildsList format eBuilder toExpr cs
/-- `Rebuilds` for every tree of a list. -/
def RebuildsList {N E : Type} (format : String → Option N) (eBuilder : Builder N E)
    (toExpr : CommandTree → E) : List CommandTree → Prop
  | [] => True
  | c :: cs => Rebuilds format eBuilder toExpr c ∧ RebuildsList format eBuilder toExpr cs
end

/-- The Builder whose expressions are the command trees themselves: it constructs
exactly the node it is asked for, and gives the empty result on an empty child. -/
def treeBuilder : Builder String CommandTree where
  literal := fun text => some (.literal text)
  add := fun children _ => (nonEmptyChildren children).map fun cs => .symbol "+" cs
  call := fun name children => (nonEmptyChildren children).map fun cs => .symbol name cs

/-! ## BaseArray.cpp

The build flags: `NO_EXCEPTIONS` is taken as not defined (the checks that throw are
compiled in); `SPECIALIZE_SIZE_ONE` is a parameter; `OPTIMIZE_GET_SET` and
`USE_SHARED_ARRAY` change only how a digit is returned and stored.  The fields
`startPadding`, `startNumbers` and `end` are `int`, arguments are `unsigned int`, both 32
bits wide.  A cast between them wraps modulo `2 ^ 32`, and so does every `int` addition,
subtraction and negation (`wrapInt`), as on the two's-complement targets the program is
built for; every field holds a value in `[-2 ^ 31, 2 ^ 31)`. -/

/-- The exceptions BaseArray.cpp throws, and `undefined` for a read outside the digit
storage. -/
inductive Fault where
  | logic_error
  | invalid_argument
  | out_of_range
  | thrown_int
  | undefined
deriving DecidableEq, Repr

instance {ε α : Type} [DecidableEq ε] [DecidableEq α] : DecidableEq (Except ε α)
  | .ok a, .ok b =>
    if h : a = b then isTrue (by rw [h]) else isFalse (fun h2 => h (Except.ok.inj h2))
  | .error a, .error b =>
    if h : a = b then isTrue (by rw [h]) else isFalse (fun h2 => h (Except.error.inj h2))
  | .ok _, .error _ => isFalse (fun h => Except.noConfusion h)
  | .error _, .ok _ => isFalse (fun h => Except.noConfusion h)

/-- The values an `int` holds: `[-2 ^ 31, 2 ^ 31)`. -/
def isInt (x : Int) : Prop := -2 ^ 31 ≤ x ∧ x < 2 ^ 31

instance (x : Int) : Decidable (isInt x) := by
  unfold isInt; infer_instance

/-- The `int` that results from an arithmetic operation whose exact value is `x`: `x`
reduced modulo `2 ^ 32` into `[-2 ^ 31, 2 ^ 31)`. -/
def wrapInt (x : Int) : Int := (x + 2 ^ 31) % 2 ^ 32 - 2 ^ 31

/-- `static_cast<int>(u)` of an unsigned value: `u` modulo `2 ^ 32`, read as a
two's-complement `int`. -/
def toInt (u : Nat) : Int :=
  if u % 2 ^ 32 < 2 ^ 31 then ((u % 2 ^ 32 : Nat) : Int)
  else ((u % 2 ^ 32 : Nat) : Int) - 2 ^ 32

/-- `static_cast<unsigned int>(x)` of an `int`: `x` modulo `2 ^ 32`. -/
def toUnsigned (x : Int) : Nat := (x % 2 ^ 32).toNat

/-- The data members of `BaseArray`.  `digits` is the content of the shared digit vector
(valid at the positions `0 .. m_digits_size - 1`), `digit` the single unit used instead
under `SPECIALIZE_SIZE_ONE` when `m_digits_size <= 1`; `end_` is the member `end`.  The
three window members are `int`s: each comes with the proof that its value is one. -/
structure BaseArray where
  finalized : Bool
  startPadding : Int
  startNumbers : Int
  end_ : Int
  m_digits_size : Nat
  digits : Nat → Nat
  digit : Nat
  startPadding_int : isInt startPadding
  startNumbers_int : isInt startNumbers
  end_int : isInt end_

/-- `BaseArray::BaseArray(size_t size)`.  The storage is not initialized: `memory` and
`digit` are what it happens to hold.  Without `SPECIALIZE_SIZE_ONE` the constructor
throws `0` for a size above 1. -/
def BaseArray.new (specializeSizeOne : Bool) (size : Nat) (memory : Nat → Nat) (digit : Nat) :
    Except Fault BaseArray :=
  if specializeSizeOne = false ∧ size > 1 then .error .thrown_int
  else .ok
    { finalized := false
      startPadding := 0
      startNumbers := 0
      end_ := toInt size
      m_digits_size := size
      digits := memory
      digit := digit
      startPadding_int := (by decide)
      startNumbers_int := (by decide)
      end_int := (by unfold isInt toInt; split <;> omega) }

/-- `BaseArray::finalize`. -/
def BaseArray.finalize (b : BaseArray) : BaseArray := { b with finalized := true }

/-- `BaseArray::isFinalized`. -/
def BaseArray.isFinalized (b : BaseArray) : Bool := b.finalized

/-- `BaseArray::size`. -/
def BaseArray.size (b : BaseArray) : Nat := toUnsigned (wrapInt (b.end_ - b.startPadding))

/-- The read `DIGITS_REF[temp]`, or `m_digit_data.digit` under `SPECIALIZE_SIZE_ONE`
when `m_digits_size <= 1`.  A position outside `[0, m_digits_size)` is outside the
vector: `undefined`. -/
def BaseArray.readStorage (specializeSizeOne : Bool) (b : BaseArray) (temp : Int) :
    Except Fault Nat :=
  if specializeSizeOne = true ∧ ¬ b.m_digits_size > 1 then .ok b.digit
  else if 0 ≤ temp ∧ temp < (b.m_digits_size : Int) then .ok (b.digits temp.toNat)
  else .error .undefined

/-- `BaseArray::operator[] (unsigned int index) const`. -/
def BaseArray.get (specializeSizeOne : Bool) (b : BaseArray) (index : Nat) : Except Fault Nat :=
  let temp := wrapInt (b.startPadding + toInt index)
  if temp < b.startNumbers then .ok 0
  else if temp ≥ b.end_ then .error .out_of_range
  else b.readStorage specializeSizeOne temp

/-- `BaseArray::cutToSize`. -/
def BaseArray.cutToSize (b : BaseArray) (size : Nat) : Except Fault BaseArray :=
  if !b.isFinalized then .error .logic_error
  else if toInt size > wrapInt (b.end_ - b.startPadding) then .error .invalid_argument
  else
    let b := { b with end_ := wrapInt (b.startPadding + toInt size),
                      end_int := (by unfold isInt wrapInt; omega) }
    if b.end_ ≥ b.startNumbers then .ok b
    else
      let b := { b with startNumbers := b.end_, startNumbers_int := b.end_int }
      if b.end_ ≥ 0 then .ok b
      else
        let b := { b with startPadding := wrapInt (b.startPadding + wrapInt (-b.end_)),
                          startPadding_int := (by unfold isInt wrapInt; omega) }
        .ok { b with end_ := 0, startNumbers := 0, end_int := (by decide),
                     startNumbers_int := (by decide) }

/-- The `while (startPadding < end)` loop of `removeTrailingZeros`; `count` is kept
exact. -/
def BaseArray.removeTrailingZerosLoop (specializeSizeOne : Bool) (b : BaseArray) (count : Nat) :
    Except Fault (Nat × BaseArray) :=
  if b.startPadding < b.end_ then
    match b.readStorage specializeSizeOne b.startPadding with
    | .error e => .error e
    | .ok d =>
      if d ≠ 0 then .ok (count, b)
      else
        BaseArray.removeTrailingZerosLoop specializeSizeOne
          { b with startPadding := wrapInt (b.startPadding + 1),
                   startNumbers := wrapInt (b.startNumbers + 1),
                   startPadding_int := (by unfold isInt wrapInt; omega),
                   startNumbers_int := (by unfold isInt wrapInt; omega) }
          (count + 1)
  else .ok (count, b)
termination_by (b.end_ - b.startPadding).toNat
decreasing_by
  have h1 := b.end_int
  have h2 := b.startPadding_int
  unfold isInt at h1 h2
  simp_wf
  unfold wrapInt
  omega

/-- `BaseArray::removeTrailingZeros`: the returned count and the array afterwards.
`count` is an `unsigned int`; the exact count is reduced modulo `2 ^ 32` on return,
which is what reducing at every `count +=` and `count++` gives. -/
def BaseArray.removeTrailingZeros (specializeSizeOne : Bool) (b : BaseArray) :
    Except Fault (Nat × BaseArray) :=
  if !b.isFinalized then .error .logic_error
  else
    let count := 0
    let start :=
      if b.startPadding < b.startNumbers then
        (count + toUnsigned (wrapInt (b.startNumbers - b.startPadding)),
          { b with startPadding := b.startNumbers, startPadding_int := b.startNumbers_int })
      else (count, b)
    match BaseArray.removeTrailingZerosLoop specializeSizeOne start.2 start.1 with
    | .error e => .error e
    | .ok (count, b) => .ok (count % 2 ^ 32, b)

/-- The `while (end > startNumbers)` loop of `removeLeadingZeros`; `count` is kept
exact. -/
def BaseArray.removeLeadingZerosLoop (specializeSizeOne : Bool) (b : BaseArray) (count : Nat) :
    Except Fault (Nat × BaseArray) :=
  if b.end_ > b.startNumbers then
    match b.readStorage specializeSizeOne (wrapInt (b.end_ - 1)) with
    | .error e => .error e
    | .ok d =>
      if d ≠ 0 then .ok (count, b)
      else
        BaseArray.removeLeadingZerosLoop specializeSizeOne
          { b with end_ := wrapInt (b.end_ - 1), end_int := (by unfold isInt wrapInt; omega) }
          (count + 1)
  else .ok (count, b)
termination_by (b.end_ - b.startNumbers).toNat
decreasing_by
  have h1 := b.end_int
  have h2 := b.startNumbers_int
  unfold isInt at h1 h2
  simp_wf
  unfold wrapInt
  omega

/-- `BaseArray::removeLeadingZeros`: the returned count (modulo `2 ^ 32`) and the array
afterwards. -/
def BaseArray.removeLeadingZeros (specializeSizeOne : Bool) (b : BaseArray) :
    Except Fault (Nat × BaseArray) :=
  if !b.isFinalized then .error .logic_error
  else
    match BaseArray.removeLeadingZerosLoop specializeSizeOne b 0 with
    | .error e => .error e
    | .ok (count, b) =>
      if b.end_ = b.startNumbers then
        .ok ((count + toUnsigned (wrapInt (b.startNumbers - b.startPadding))) % 2 ^ 32,
          { b with end_ := 0, startNumbers := 0, startPadding := 0, end_int := (by decide),
                   startNumbers_int := (by decide), startPadding_int := (by decide) })
      else .ok (count % 2 ^ 32, b)

/-- `BaseArray::shiftLeft`. -/
def BaseArray.shiftLeft (b : BaseArray) (i : Nat) : Except Fault BaseArray :=
  if !b.isFinalized then .error .logic_error
  else .ok { b with startPadding := wrapInt (b.startPadding - toInt i),
                    startPadding_int := (by unfold isInt wrapInt; omega) }

/-- `BaseArray::shiftRight`. -/
def BaseArray.shiftRight (b : BaseArray) (i : Nat) : Except Fault BaseArray :=
  if !b.isFinalized then .error .logic_error
  else
    let b := { b with startPadding := wrapInt (b.startPadding + toInt i),
                      startPadding_int := (by unfold isInt wrapInt; omega) }
    let b :=
      if b.startPadding > b.startNumbers then
        { b with startNumbers := b.startPadding, startNumbers_int := b.startPadding_int }
      else b
    let b :=
      if b.startPadding > b.end_ then
        { b with startPadding := b.end_, startNumbers := b.end_,
                 startPadding_int := b.end_int, startNumbers_int := b.end_int }
      else b
    .ok b

/-- The window invariant: `0 <= startNumbers`, `startPadding <= startNumbers <= end` and
`end <= m_digits_size`. -/
def BaseArray.windowInvariant (b : BaseArray) : Prop :=
  0 ≤ b.startNumbers ∧ b.startPadding ≤ b.startNumbers ∧ b.startNumbers ≤ b.end_
    ∧ b.end_ ≤ (b.m_digits_size : Int)

instance (b : BaseArray) : Decidable b.windowInvariant := by
  unfold BaseArray.windowInvariant; infer_instance

/-- The size `end - startPadding` fits in a non-negative `int`, so the subtraction in
`size()` and in the test of `cutToSize` does not wrap. -/
def BaseArray.sizeFitsInt (b : BaseArray) : Prop := b.end_ - b.startPadding < 2 ^ 31

instance (b : BaseArray) : Decidable b.sizeFitsInt := by
  unfold BaseArray.sizeFitsInt; infer_instance

/-- A finalized array for concrete runs: three zero paddings below the stored digits
`0 0 5 7 0` (lowest first), in a storage of five units. -/
def sampleArray : BaseArray where
  finalized := true
  startPadding := -3
  startNumbers := 0
  end_ := 5
  m_digits_size := 5
  digits := fun i => [0, 0, 5, 7, 0].getD i 0
  digit := 0
  startPadding_int := by decide
  startNumbers_int := by decide
  end_int := by decide

/-- The finalized empty array: what `BaseArray(0)` and `finalize` give. -/
def emptyArray : BaseArray where
  finalized := true
  startPadding := 0
  startNumbers := 0
  end_ := 0
  m_digits_size := 0
  digits := fun _ => 0
  digit := 0
  startPadding_int := by decide
  startNumbers_int := by decide
  end_int := by decide

/-- A finalized array whose window starts at `INT_MIN`: what two calls of `shiftLeft`
(by `2147483647` and by `1`) make of the one-digit array holding `5`. -/
def wideArray : BaseArray where
  finalized := true
  startPadding := -2147483648
  startNumbers := 0
  end_ := 1
  m_digits_size := 1
  digits := fun _ => 5
  digit := 5
  startPadding_int := by decide
  startNumbers_int := by decide
  end_int := by decide

/-- A finalized array of three stored digits `1 2 3` whose window starts at storage
position `2`: what `shiftRight(2)` makes of a five-digit array. -/
def offsetArray : BaseArray where
  finalized := true
  startPadding := 2
  startNumbers := 2
  end_ := 5
  m_digits_size := 5
  digits := fun i => [0, 0, 1, 2, 3].getD i 0
  digit := 0
  startPadding_int := by decide
  startNumbers_int := by decide
  end_int := by decide

/-- Two arrays share the storage and the finalized flag: they differ at most in the
window members. -/
def BaseArray.sameStorage (b1 b : BaseArray) : Prop :=
  b1.m_digits_size = b.m_digits_size ∧ b1.digits = b.digits ∧ b1.digit = b.digit
    ∧ b1.finalized = b.finalized

/-! # Theorems -/

/-! ### Lemmas on `popChildren` and the loop -/

theorem popChildren_eq {E : Type} (k : Nat) (expStack children : List (Ptr E))
    (h : k ≤ expStack.length) :
    popChildren k expStack children
      = some (expStack.drop k, (expStack.take k).reverse ++ children) := by
  induction k generalizing expStack children with
  | zero => simp [popChildren]
  | succ k ih =>
    cases expStack with
    | nil => simp at h
    | cons top rest =>
      simp only [List.length_cons, Nat.add_le_add_iff_right] at h
      simp [popChildren, ih rest (top :: children) h]

theorem popChildren_none {E : Type} (k : Nat) (expStack children : List (Ptr E))
    (h : expStack.length < k) : popChildren k expStack children = none := by
  induction k generalizing expStack children with
  | zero => simp at h
  | succ k ih =>
    cases expStack with
    | nil => simp [popChildren]
    | cons top rest =>
      simp only [List.length_cons, Nat.add_lt_add_iff_right] at h
      simp [popChildren, ih rest (top :: children) h]

theorem buildLoop_append {N E : Type} (format : String → Option N) (eBuilder : Builder N E)
    (pre post : List Command) (st : BuildState E) :
    buildLoop format eBuilder (pre ++ post) st
      = (buildLoop format eBuilder pre st).bind (buildLoop format eBuilder post) := by
  induction pre generalizing st with
  | nil => simp [buildLoop]
  | cons c cs ih =>
    simp only [List.cons_append, buildLoop]
    cases buildStep format eBuilder st c with
    | none => simp
    | some st1 => simpa using ih st1

/-- The scratch vector `children` is empty at the head of every iteration. -/
theorem buildStep_children {N E : Type} (format : String → Option N) (eBuilder : Builder N E)
    (st st1 : BuildState E) (c : Command) (hc : st.children = [])
    (h : buildStep format eBuilder st c = some st1) : st1.children = [] := by
  unfold buildStep at h
  split at h
  · split at h
    · simp at h
    · simp only [Option.some.injEq] at h; subst h; simpa using hc
  · split at h
    · simp at h
    · split at h
      · simp at h
      · simp only [Option.some.injEq] at h; subst h; rfl

theorem buildLoop_children {N E : Type} (format : String → Option N) (eBuilder : Builder N E)
    (cs : List Command) (st st1 : BuildState E) (hc : st.children = [])
    (h : buildLoop format eBuilder cs st = some st1) : st1.children = [] := by
  induction cs generalizing st with
  | nil => simp only [buildLoop, Option.some.injEq] at h; subst h; exact hc
  | cons c cs ih =>
    simp only [buildLoop] at h
    split at h
    · simp at h
    · next st2 h2 => exact ih st2 (buildStep_children format eBuilder st st2 c hc h2) h

/-! ### C1 - C3 : `buildExpression` -/

/-- C1. In `Parser::buildExpression`, whenever a symbol command of arity `k` is reached
(the commands before it ran through, leaving state `st`) with at least `k` values on the
stack, the inner loop collects exactly the `k` most recently pushed values, in the order
in which they were pushed (last popped leftmost); the Builder is called on that vector;
and the iteration replaces those `k` values by the Builder's result, leaving the values
below them untouched (an empty Builder result ends the function instead). -/
theorem buildExpression_symbol_step {N E : Type} (format : String → Option N)
    (eBuilder : Builder N E) (pre : List Command) (st : BuildState E) (c : Command)
    (hreach : buildLoop format eBuilder pre BuildState.init = some st)
    (hsym : c.nodeType = NodeType.symbol)
    (hk : c.numberOfChildren ≤ st.expStack.length) :
    popChildren c.numberOfChildren st.expStack st.children
        = some (st.expStack.drop c.numberOfChildren,
                (st.expStack.take c.numberOfChildren).reverse)
      ∧ buildStep format eBuilder st c
        = (eBuilder.call c.nodeName (st.expStack.take c.numberOfChildren).reverse).map
            (fun node => { expStack := some node :: st.expStack.drop c.numberOfChildren,
                           children := [] }) := by
  have hc : st.children = [] :=
    buildLoop_children format eBuilder pre BuildState.init st rfl hreach
  have hp := popChildren_eq c.numberOfChildren st.expStack st.children hk
  rw [hc, List.append_nil] at hp
  rw [hc]
  refine ⟨hp, ?_⟩
  unfold buildStep
  rw [hsym]
  simp only [hc, hp]
  cases eBuilder.call c.nodeName (st.expStack.take c.numberOfChildren).reverse <;> rfl

theorem buildExpression_symbol_step_witness :
    buildStep (fun s => some s) echoBuilder
        ⟨[some "c", some "b", some "a"], []⟩ ⟨NodeType.symbol, "f", 2⟩
      = some ⟨[some "f(b,c)", some "a"], []⟩ := by
  have h := (buildExpression_symbol_step (fun s => some s) echoBuilder
    [⟨NodeType.literal, "a", 0⟩, ⟨NodeType.literal, "b", 0⟩, ⟨NodeType.literal, "c", 0⟩]
    ⟨[some "c", some "b", some "a"], []⟩ ⟨NodeType.symbol, "f", 2⟩ rfl rfl (by decide)).2
  rw [h]
  rfl

theorem nonEmptyChildren_isSome {E : Type} (cs : List (Ptr E))
    (h : ∀ p ∈ cs, p.isSome) : (nonEmptyChildren cs).isSome := by
  induction cs with
  | nil => rfl
  | cons p rest ih =>
    cases p with
    | none => exact absurd (h none (List.mem_cons_self _ _)) (by simp)
    | some e =>
      have hr := ih (fun q hq => h q (List.mem_cons_of_mem _ hq))
      obtain ⟨l, hl⟩ := Option.isSome_iff_exists.mp hr
      simp [nonEmptyChildren, hl]

/-- When the formatter and the Builder accept the literals and symbols of the command
list, the loop of `buildExpression` follows the Reverse-Polish depth rule and never puts
an empty pointer on the stack. -/
theorem buildLoop_rpnDepth {N E : Type} (format : String → Option N) (eBuilder : Builder N E)
    (cs : List Command)
    (hlit : ∀ c ∈ cs, c.nodeType = NodeType.literal →
      ((format c.nodeName).bind eBuilder.literal).isSome)
    (hcall : ∀ c ∈ cs, c.nodeType = NodeType.symbol →
      ∀ children : List (Ptr E), children.length = c.numberOfChildren →
        (∀ p ∈ children, p.isSome) → (eBuilder.call c.nodeName children).isSome)
    (st : BuildState E) (hc : st.children = [])
    (hs : ∀ p ∈ st.expStack, p.isSome) :
    match buildLoop format eBuilder cs st with
    | none => rpnDepth cs st.expStack.length = none
    | some st1 => rpnDepth cs st.expStack.length = some st1.expStack.length
        ∧ ∀ p ∈ st1.expStack, p.isSome := by
  induction cs generalizing st with
  | nil => simpa [buildLoop, rpnDepth] using hs
  | cons c cs ih =>
    have hlit1 := fun c1 (h : c1 ∈ cs) => hlit c1 (List.mem_cons_of_mem _ h)
    have hcall1 := fun c1 (h : c1 ∈ cs) => hcall c1 (List.mem_cons_of_mem _ h)
    simp only [buildLoop, rpnDepth]
    cases hty : c.nodeType with
    | literal =>
      have hacc := hlit c (List.mem_cons_self _ _) hty
      cases hnum : format c.nodeName with
      | none => rw [hnum] at hacc; exact absurd hacc (by simp)
      | some number =>
        rw [hnum] at hacc
        have hstep : buildStep format eBuilder st c
            = some { st with expStack := eBuilder.literal number :: st.expStack } := by
          simp [buildStep, hty, hnum]
        rw [hstep]
        have := ih hlit1 hcall1 { st with expStack := eBuilder.literal number :: st.expStack }
          hc
          (by
            intro p hp
            rcases List.mem_cons.mp hp with h | h
            · rw [h]; exact hacc
            · exact hs p h)
        simpa using this
    | symbol =>
      by_cases hk : c.numberOfChildren ≤ st.expStack.length
      · have hp := popChildren_eq c.numberOfChildren st.expStack st.children hk
        rw [hc, List.append_nil] at hp
        obtain ⟨node, hnode⟩ := Option.isSome_iff_exists.mp
          (hcall c (List.mem_cons_self _ _) hty (st.expStack.take c.numberOfChildren).reverse
            (by rw [List.length_reverse, List.length_take]; omega)
            (by
              intro p hp2
              exact hs p (List.mem_of_mem_take (List.mem_reverse.mp hp2))))
        have hstep : buildStep format eBuilder st c
            = some { expStack := some node :: st.expStack.drop c.numberOfChildren,
                     children := [] } := by
          simp [buildStep, hty, hc, hp, hnode]
        rw [hstep]
        have := ih hlit1 hcall1
          { expStack := some node :: st.expStack.drop c.numberOfChildren, children := [] } rfl
          (by
            intro p hp2
            rcases List.mem_cons.mp hp2 with h | h
            · rw [h]; rfl
            · exact hs p (List.mem_of_mem_drop h))
        simpa [hk] using this
      · have hp := popChildren_none c.numberOfChildren st.expStack st.children (by omega)
        have hstep : buildStep format eBuilder st c = none := by
          simp [buildStep, hty, hp]
        rw [hstep]
        simp [hk]

/-- C2, as stated, fails for a Builder whose `literal` returns the empty pointer: with a
formatter that accepts every literal and the Builder `emptyLiteralBuilder`, which accepts
every symbol, the one-command list `[literal 1]` is well-formed Reverse-Polish, yet
`buildExpression` pushes the empty pointer that `literal` returned and returns it. -/
theorem buildExpression_emptyLiteral_counterexample :
    (∀ s : String, ((fun s => some s : String → Option String) s).isSome)
      ∧ (∀ name children, (emptyLiteralBuilder.call name children).isSome)
      ∧ wellFormedRPN [⟨NodeType.literal, "1", 0⟩]
      ∧ buildExpression (fun s => some s) emptyLiteralBuilder [⟨NodeType.literal, "1", 0⟩]
          = none
      ∧ ¬ (buildExpression (fun s => some s) emptyLiteralBuilder
            [⟨NodeType.literal, "1", 0⟩]).isSome := by
  refine ⟨fun _ => rfl, fun _ _ => rfl, by decide, rfl, ?_⟩
  intro h
  exact absurd h (by simp [buildExpression, buildLoop, buildStep, BuildState.init,
    emptyLiteralBuilder])

/-- C2, amended. Assuming that for every literal command of the list the number
formatter accepts the literal and the Builder's `literal` returns a non-empty expression
for the number, and that for every symbol command of the list the Builder returns a
non-empty expression whenever it is called with that name on as many children as the
command's arity, all non-empty, `Parser::buildExpression` returns a non-empty expression
if and only if the command list is well-formed Reverse-Polish (every symbol command finds
at least as many values on the stack as its arity, and exactly one value is left after
the last command); in particular the empty command list yields the empty expression. -/
theorem buildExpression_isSome_iff {N E : Type} (format : String → Option N)
    (eBuilder : Builder N E) (commands : List Command)
    (hlit : ∀ c ∈ commands, c.nodeType = NodeType.literal →
      ((format c.nodeName).bind eBuilder.literal).isSome)
    (hcall : ∀ c ∈ commands, c.nodeType = NodeType.symbol →
      ∀ children : List (Ptr E), children.length = c.numberOfChildren →
        (∀ p ∈ children, p.isSome) → (eBuilder.call c.nodeName children).isSome) :
    ((buildExpression format eBuilder commands).isSome ↔ wellFormedRPN commands)
      ∧ buildExpression format eBuilder [] = none := by
  refine ⟨?_, by simp [buildExpression, buildLoop, BuildState.init]⟩
  have h := buildLoop_rpnDepth format eBuilder commands hlit hcall BuildState.init rfl
    (by simp [BuildState.init])
  unfold buildExpression wellFormedRPN
  cases hrun : buildLoop format eBuilder commands BuildState.init with
  | none =>
    rw [hrun] at h
    simp only [BuildState.init, List.length_nil] at h
    simp [h]
  | some st1 =>
    rw [hrun] at h
    simp only [BuildState.init, List.length_nil] at h
    obtain ⟨hd, hall⟩ := h
    rw [hd]
    obtain ⟨stack, children⟩ := st1
    simp only at hall ⊢
    match stack, hall with
    | [], _ => simp
    | [top], hall =>
      have : top.isSome := hall top (by simp)
      simpa using this
    | a :: b :: rest, _ => simp

theorem buildExpression_isSome_iff_witness :
    ((buildExpression rejectQuestionMark (Standard String)
        [⟨NodeType.literal, "1", 0⟩, ⟨NodeType.literal, "x", 0⟩, ⟨NodeType.symbol, "+", 2⟩]).isSome
      ↔ wellFormedRPN
        [⟨NodeType.literal, "1", 0⟩, ⟨NodeType.literal, "x", 0⟩, ⟨NodeType.symbol, "+", 2⟩])
    ∧ buildExpression rejectQuestionMark (Standard String) [] = none :=
  buildExpression_isSome_iff rejectQuestionMark (Standard String)
    [⟨NodeType.literal, "1", 0⟩, ⟨NodeType.literal, "x", 0⟩, ⟨NodeType.symbol, "+", 2⟩]
    (by
      intro c hc hty
      simp only [List.mem_cons, List.mem_singleton, List.not_mem_nil, or_false] at hc
      rcases hc with h | h | h <;> subst h
      · rfl
      · rfl
      · exact absurd hty (by decide))
    (by
      intro c hc hty children _ hall
      simp only [List.mem_cons, List.mem_singleton, List.not_mem_nil, or_false] at hc
      rcases hc with h | h | h <;> subst h
      · exact absurd hty (by decide)
      · exact absurd hty (by decide)
      · obtain ⟨l, hl⟩ := Option.isSome_iff_exists.mp (nonEmptyChildren_isSome children hall)
        simp [Standard, hl])

/-- C3. If the number formatter returns no value for a literal command that is reached,
or the Builder is called for a symbol command that is reached and returns an empty
result, `Parser::buildExpression` returns the empty expression whatever commands
follow. -/
theorem buildExpression_rejected {N E : Type} (format : String → Option N)
    (eBuilder : Builder N E) (pre post : List Command) (st : BuildState E) (c : Command)
    (hreach : buildLoop format eBuilder pre BuildState.init = some st)
    (hrej : (c.nodeType = NodeType.literal ∧ format c.nodeName = none)
      ∨ (c.nodeType = NodeType.symbol ∧ ∃ expStack children,
          popChildren c.numberOfChildren st.expStack st.children = some (expStack, children)
            ∧ eBuilder.call c.nodeName children = none)) :
    buildExpression format eBuilder (pre ++ c :: post) = none := by
  have hstep : buildStep format eBuilder st c = none := by
    rcases hrej with ⟨hty, hnone⟩ | ⟨hty, expStack, children, hp, hnone⟩
    · simp [buildStep, hty, hnone]
    · simp [buildStep, hty, hp, hnone]
  unfold buildExpression
  rw [buildLoop_append, hreach]
  simp [buildLoop, hstep]

theorem buildExpression_rejected_witness :
    buildExpression (fun s => if s = "1e" then none else some s) echoBuilder
      ([⟨NodeType.literal, "2", 0⟩] ++ ⟨NodeType.literal, "1e", 0⟩ ::
        [⟨NodeType.symbol, "*", 2⟩]) = none :=
  buildExpression_rejected (fun s => if s = "1e" then none else some s) echoBuilder
    [⟨NodeType.literal, "2", 0⟩] [⟨NodeType.symbol, "*", 2⟩] ⟨[some "2"], []⟩
    ⟨NodeType.literal, "1e", 0⟩ (by simp [buildLoop, buildStep, BuildState.init, echoBuilder]) (Or.inl ⟨rfl, by simp⟩)

/-! ### Restructurer: `getChildren` and the visit methods -/

theorem drop_set_self {α : Type} (l : List α) (m : Nat) (a : α) (h : m < l.length) :
    (l.set m a).drop m = a :: l.drop (m + 1) := by
  rw [List.set_eq_take_cons_drop a h]
  have hlen : (List.take m l).length = m := by simp; omega
  rw [List.drop_append_of_le_length (by omega), List.drop_of_length_le (by omega)]
  simp

/-- Loop invariant of `getChildren`: with `m` iterations left, the upper part of the
vector is already filled and the loop writes the next `m` popped entries, reversed, into
the first `m` slots. -/
theorem getChildrenLoop_eq {E : Type} (nc m : Nat) :
    ∀ (i : Nat) (children childResults : List (Ptr E)), i + m = nc →
      children.length = nc → m ≤ childResults.length →
      getChildrenLoop nc i children childResults
        = some ((childResults.take m).reverse ++ children.drop m, childResults.drop m) := by
  induction m with
  | zero =>
    intro i children childResults hi _ _
    unfold getChildrenLoop
    simp [show ¬ i < nc by omega]
  | succ m ih =>
    intro i children childResults hi hlen hm
    unfold getChildrenLoop
    cases childResults with
    | nil => simp at hm
    | cons top rest =>
      simp only [List.length_cons, Nat.add_le_add_iff_right] at hm
      have hidx : nc - i - 1 = m := by omega
      simp only [show i < nc by omega, if_true, getPop, hidx]
      rw [ih (i + 1) (children.set m top) rest (by omega) (by simpa using hlen) hm]
      rw [drop_set_self children m top (by omega)]
      simp

theorem getChildrenLoop_none {E : Type} (nc m : Nat) :
    ∀ (i : Nat) (children childResults : List (Ptr E)), i + m = nc →
      childResults.length < m → getChildrenLoop nc i children childResults = none := by
  induction m with
  | zero => intro i children childResults _ h; simp at h
  | succ m ih =>
    intro i children childResults hi hm
    unfold getChildrenLoop
    cases childResults with
    | nil => simp [show i < nc by omega, getPop]
    | cons top rest =>
      simp only [List.length_cons, Nat.add_lt_add_iff_right] at hm
      simp only [show i < nc by omega, if_true, getPop]
      exact ih (i + 1) _ rest (by omega) hm

/-- What `getChildren` returns when the stack holds at least `nc` entries: the top `nc`
entries, oldest first, and the stack without them. -/
theorem getChildren_eq {E : Type} (nc : Nat) (childResults : List (Ptr E))
    (h : nc ≤ childResults.length) :
    getChildren nc childResults
      = some ((childResults.take nc).reverse, childResults.drop nc) := by
  unfold getChildren
  rw [getChildrenLoop_eq nc nc 0 _ childResults (by omega) (by simp) h]
  simp

theorem getChildren_none {E : Type} (nc : Nat) (childResults : List (Ptr E))
    (h : childResults.length < nc) : getChildren nc childResults = none := by
  unfold getChildren
  exact getChildrenLoop_none nc nc 0 _ childResults (by omega) h

theorem visitWith_eq {N : Type} (exp : Expr N) (m : List (Ptr (Expr N)) → Ptr (Expr N))
    (childResults : List (Ptr (Expr N))) (h : exp.numberOfChildren ≤ childResults.length) :
    visitWith exp m childResults
      = some (m (childResults.take exp.numberOfChildren).reverse
          :: childResults.drop exp.numberOfChildren) := by
  unfold visitWith
  rw [getChildren_eq _ _ h]

/-- A visit method called right after the results `rs` of the node's children were
pushed (last child on top) passes them on in child order and replaces them by one
entry. -/
theorem visitWith_results {N : Type} (exp : Expr N) (m : List (Ptr (Expr N)) → Ptr (Expr N))
    (rs s : List (Ptr (Expr N))) (h : rs.length = exp.numberOfChildren) :
    visitWith exp m (rs.reverse ++ s) = some (m rs :: s) := by
  rw [visitWith_eq exp m _ (by simp; omega)]
  rw [← h]
  have h1 : (rs.reverse ++ s).take rs.length = rs.reverse := by
    rw [List.take_append_of_le_length (by simp)]
    exact List.take_of_length_le (by simp)
  have h2 : (rs.reverse ++ s).drop rs.length = s := by
    rw [List.drop_append_of_le_length (by simp)]
    rw [List.drop_of_length_le (by simp)]
    rfl
  rw [h1, h2, List.reverse_reverse]

mutual
/-- A post-order visit pushes exactly one entry on whatever stack it starts from. -/
theorem visitExpression_push {N : Type} (R : Restructurer N) :
    ∀ (e : Expr N) (s : List (Ptr (Expr N))), ∃ r, visitExpression R e s = some (r :: s)
  | .literal number, s => by
    simp only [visitExpression, visitLiteral]
    exact ⟨_, visitWith_results (.literal number) _ [] s rfl⟩
  | .symbol name cs, s => by
    obtain ⟨rs, hlen, hrs⟩ := visitChildren_push R cs s
    simp only [visitExpression, hrs, Option.some_bind, visitSymbol]
    exact ⟨_, visitWith_results (.symbol name cs) _ rs s hlen⟩
  | .add cs signs, s => by
    obtain ⟨rs, hlen, hrs⟩ := visitChildren_push R cs s
    simp only [visitExpression, hrs, Option.some_bind, visitAdd]
    exact ⟨_, visitWith_results (.add cs signs) _ rs s hlen⟩
  | .multiply cs, s => by
    obtain ⟨rs, hlen, hrs⟩ := visitChildren_push R cs s
    simp only [visitExpression, hrs, Option.some_bind, visitMultiply]
    exact ⟨_, visitWith_results (.multiply cs) _ rs s hlen⟩
  | .negate c, s => by
    obtain ⟨r, hr⟩ := visitExpression_push R c s
    simp only [visitExpression, hr, Option.some_bind, visitNegate]
    exact ⟨_, visitWith_results (.negate c) _ [r] s rfl⟩
  | .factorial c, s => by
    obtain ⟨r, hr⟩ := visitExpression_push R c s
    simp only [visitExpression, hr, Option.some_bind, visitFactorial]
    exact ⟨_, visitWith_results (.factorial c) _ [r] s rfl⟩
  | .divide t b, s => by
    obtain ⟨r1, hr1⟩ := visitExpression_push R t s
    obtain ⟨r2, hr2⟩ := visitExpression_push R b (r1 :: s)
    simp only [visitExpression, hr1, hr2, Option.some_bind, visitDivide]
    exact ⟨_, visitWith_results (.divide t b) _ [r1, r2] s rfl⟩
  | .modulus t b, s => by
    obtain ⟨r1, hr1⟩ := visitExpression_push R t s
    obtain ⟨r2, hr2⟩ := visitExpression_push R b (r1 :: s)
    simp only [visitExpression, hr1, hr2, Option.some_bind, visitModulus]
    exact ⟨_, visitWith_results (.modulus t b) _ [r1, r2] s rfl⟩
  | .power b e, s => by
    obtain ⟨r1, hr1⟩ := visitExpression_push R b s
    obtain ⟨r2, hr2⟩ := visitExpression_push R e (r1 :: s)
    simp only [visitExpression, hr1, hr2, Option.some_bind, visitPower]
    exact ⟨_, visitWith_results (.power b e) _ [r1, r2] s rfl⟩
/-- Visiting a child list pushes one entry per child, the last child on top. -/
theorem visitChildren_push {N : Type} (R : Restructurer N) :
    ∀ (cs : List (Expr N)) (s : List (Ptr (Expr N))),
      ∃ rs : List (Ptr (Expr N)), rs.length = cs.length
        ∧ visitChildren R cs s = some (rs.reverse ++ s)
  | [], s => ⟨[], rfl, rfl⟩
  | c :: cs, s => by
    obtain ⟨r, hr⟩ := visitExpression_push R c s
    obtain ⟨rs, hlen, hrs⟩ := visitChildren_push R cs (r :: s)
    refine ⟨r :: rs, by simp [hlen], ?_⟩
    simp only [visitChildren, hr, Option.some_bind, hrs]
    simp
end

/-! ### C4, C5 : the Restructurer -/

theorem result_ok_singleton {E : Type} (r : Ptr E) : result [r] = .ok (r, []) := rfl

theorem result_error_iff {E : Type} (s : List (Ptr E)) :
    (∃ what, result s = .error what) ↔ s.length ≠ 1 := by
  match s with
  | [] => simp [result]
  | [r] => simp [result, getPop]
  | a :: b :: rest => simp [result]

theorem visitNode_eq {N : Type} (R : Restructurer N) (exp : Expr N)
    (s : List (Ptr (Expr N))) (h : exp.numberOfChildren ≤ s.length) :
    ∃ r, visitNode R exp s = some (r :: s.drop exp.numberOfChildren) := by
  cases exp <;> exact ⟨_, visitWith_eq _ _ s h⟩

/-- C5. For every Restructurer (any bodies for the nine overridable methods) and every
expression `e`: after `reset()` a post-order visit of `e` leaves exactly one entry on the
child-results stack and `result()` returns that entry without raising (so `reduce`
returns it); each visit method, on a stack holding at least the node's
`numberOfChildren` entries, removes exactly that many and pushes exactly one; and
`result()` raises `logic_error` exactly when the stack size is not 1. -/
theorem restructurer_stack_discipline {N : Type} (R : Restructurer N) (e : Expr N)
    (s0 : List (Ptr (Expr N))) :
    (∃ r, visitExpression R e (reset s0) = some [r] ∧ result [r] = .ok (r, [])
        ∧ reduce R e = some (.ok r))
      ∧ (∀ (exp : Expr N) (s : List (Ptr (Expr N))), exp.numberOfChildren ≤ s.length →
          ∃ r, visitNode R exp s = some (r :: s.drop exp.numberOfChildren)
            ∧ (r :: s.drop exp.numberOfChildren).length + exp.numberOfChildren
                = s.length + 1)
      ∧ (∀ s : List (Ptr (Expr N)), (∃ what, result s = .error what) ↔ s.length ≠ 1) := by
  refine ⟨?_, ?_, result_error_iff⟩
  · obtain ⟨r, hr⟩ := visitExpression_push R e []
    refine ⟨r, hr, rfl, ?_⟩
    simp [reduce, hr, result_ok_singleton, Except.map]
  · intro exp s h
    obtain ⟨r, hr⟩ := visitNode_eq R exp s h
    refine ⟨r, hr, ?_⟩
    simp only [List.length_cons, List.length_drop]
    omega

theorem nonEmptyChildren_map_some {E : Type} (cs : List E) :
    nonEmptyChildren (cs.map some) = some cs := by
  induction cs with
  | nil => rfl
  | cons c cs ih => simp [nonEmptyChildren, ih]

theorem Standard_call_symbol {N : Type} (name : String) (cs : List (Expr N))
    (h : reservedNames.contains name = false) :
    (Standard N).call name (cs.map some) = some (.symbol name cs) := by
  simp only [reservedNames, List.contains_eq_any_beq, List.any_cons, List.any_nil,
    Bool.or_false, Bool.or_eq_false_iff, beq_eq_false_iff_ne, ne_eq] at h
  obtain ⟨h1, h2, h3, h4, h5, h6, h7, h8⟩ := h
  simp only [Standard, nonEmptyChildren_map_some]
  rw [if_neg h1, if_neg h2, if_neg h3, if_neg h4, if_neg h5, if_neg h6, if_neg h7, if_neg h8]

mutual
/-- The default Restructurer over the standard Builder pushes the tree it visited, when
no `Symbol` node of the tree carries a reserved name. -/
theorem visitExpression_default {N : Type} :
    ∀ (e : Expr N) (s : List (Ptr (Expr N))), e.noReservedSymbol = true →
      visitExpression (Restructurer.default (Standard N)) e s = some (some e :: s)
  | .literal number, s, _ => by
    simp only [visitExpression, visitLiteral]
    refine (visitWith_results (.literal number) _ [] s rfl).trans ?_
    rfl
  | .symbol name cs, s, h => by
    simp only [Expr.noReservedSymbol, Bool.and_eq_true, Bool.not_eq_true'] at h
    have hrs := visitChildren_default cs s h.2
    simp only [visitExpression, hrs, Option.some_bind, visitSymbol]
    refine (visitWith_results (.symbol name cs) _ (cs.map some) s (by simp [Expr.numberOfChildren, Expr.getChildVector])).trans ?_
    simp only [Restructurer.default, Standard_call_symbol name cs h.1]
  | .add cs signs, s, h => by
    simp only [Expr.noReservedSymbol] at h
    have hrs := visitChildren_default cs s h
    simp only [visitExpression, hrs, Option.some_bind, visitAdd]
    refine (visitWith_results (.add cs signs) _ (cs.map some) s (by simp [Expr.numberOfChildren, Expr.getChildVector])).trans ?_
    simp [Restructurer.default, Standard, nonEmptyChildren_map_some]
  | .multiply cs, s, h => by
    simp only [Expr.noReservedSymbol] at h
    have hrs := visitChildren_default cs s h
    simp only [visitExpression, hrs, Option.some_bind, visitMultiply]
    refine (visitWith_results (.multiply cs) _ (cs.map some) s (by simp [Expr.numberOfChildren, Expr.getChildVector])).trans ?_
    simp [Restructurer.default, Standard, nonEmptyChildren_map_some]
  | .negate c, s, h => by
    simp only [Expr.noReservedSymbol] at h
    have hr := visitExpression_default c s h
    simp only [visitExpression, hr, Option.some_bind, visitNegate]
    refine (visitWith_results (.negate c) _ [some c] s rfl).trans ?_
    simp [Restructurer.default, Standard, nonEmptyChildren]
  | .factorial c, s, h => by
    simp only [Expr.noReservedSymbol] at h
    have hr := visitExpression_default c s h
    simp only [visitExpression, hr, Option.some_bind, visitFactorial]
    refine (visitWith_results (.factorial c) _ [some c] s rfl).trans ?_
    simp [Restructurer.default, Standard, nonEmptyChildren]
  | .divide t b, s, h => by
    simp only [Expr.noReservedSymbol, Bool.and_eq_true] at h
    have hr1 := visitExpression_default t s h.1
    have hr2 := visitExpression_default b (some t :: s) h.2
    simp only [visitExpression, hr1, hr2, Option.some_bind, visitDivide]
    refine (visitWith_results (.divide t b) _ [some t, some b] s rfl).trans ?_
    simp [Restructurer.default, Standard, nonEmptyChildren]
  | .modulus t b, s, h => by
    simp only [Expr.noReservedSymbol, Bool.and_eq_true] at h
    have hr1 := visitExpression_default t s h.1
    have hr2 := visitExpression_default b (some t :: s) h.2
    simp only [visitExpression, hr1, hr2, Option.some_bind, visitModulus]
    refine (visitWith_results (.modulus t b) _ [some t, some b] s rfl).trans ?_
    simp [Restructurer.default, Standard, nonEmptyChildren]
  | .power b e, s, h => by
    simp only [Expr.noReservedSymbol, Bool.and_eq_true] at h
    have hr1 := visitExpression_default b s h.1
    have hr2 := visitExpression_default e (some b :: s) h.2
    simp only [visitExpression, hr1, hr2, Option.some_bind, visitPower]
    refine (visitWith_results (.power b e) _ [some b, some e] s rfl).trans ?_
    simp [Restructurer.default, Standard, nonEmptyChildren]
/-- The default Restructurer over the standard Builder pushes a child list as it is. -/
theorem visitChildren_default {N : Type} :
    ∀ (cs : List (Expr N)) (s : List (Ptr (Expr N))), noReservedSymbolList cs = true →
      visitChildren (Restructurer.default (Standard N)) cs s
        = some ((cs.map some).reverse ++ s)
  | [], s, _ => rfl
  | c :: cs, s, h => by
    simp only [noReservedSymbolList, Bool.and_eq_true] at h
    have hr := visitExpression_default c s h.1
    have hrs := visitChildren_default cs (some c :: s) h.2
    simp only [visitChildren, hr, Option.some_bind, hrs]
    simp
end
theorem reduce_default {N : Type} (e : Expr N) (h : e.noReservedSymbol = true) :
    reduce (Restructurer.default (Standard N)) e = some (.ok (some e)) := by
  simp [reduce, visitExpression_default e [] h, result_ok_singleton, Except.map]

/-- C4, as stated, fails: the well-formed tree `Symbol("ng", [Symbol("x")])` is rebuilt
by the default Restructurer as `Negate(Symbol("x"))`, a node of another kind, because
`Restructurer::symbol` hands the node's name to the Builder's generic call, which
dispatches on the reserved names. -/
theorem restructurer_default_identity_counterexample :
    (Expr.symbol "ng" [Expr.symbol "x" ([] : List (Expr Nat))]).wellFormed = true
      ∧ reduce (Restructurer.default (Standard Nat))
          (Expr.symbol "ng" [Expr.symbol "x" []])
        = some (.ok (some (Expr.negate (Expr.symbol "x" []))))
      ∧ reduce (Restructurer.default (Standard Nat))
          (Expr.symbol "ng" [Expr.symbol "x" []])
        ≠ some (.ok (some (Expr.symbol "ng" [Expr.symbol "x" []]))) := by
  have hx : visitExpression (Restructurer.default (Standard Nat))
      (Expr.symbol "x" []) [] = some [some (Expr.symbol "x" [])] :=
    visitExpression_default _ _ (by decide)
  have hv : visitExpression (Restructurer.default (Standard Nat))
      (Expr.symbol "ng" [Expr.symbol "x" []]) []
        = some [some (Expr.negate (Expr.symbol "x" []))] := by
    have hdef : visitExpression (Restructurer.default (Standard Nat))
        (Expr.symbol "ng" [Expr.symbol "x" []]) []
          = ((visitExpression (Restructurer.default (Standard Nat))
                (Expr.symbol "x" []) []).bind fun s => some s).bind
              (visitSymbol (Restructurer.default (Standard Nat)) "ng" [Expr.symbol "x" []]) :=
      rfl
    rw [hdef, hx]
    simp only [Option.some_bind, visitSymbol]
    refine (visitWith_results (Expr.symbol "ng" [Expr.symbol "x" []]) _
      [some (Expr.symbol "x" [])] [] rfl).trans ?_
    simp [Restructurer.default, Standard, nonEmptyChildren]
  have hr : reduce (Restructurer.default (Standard Nat))
      (Expr.symbol "ng" [Expr.symbol "x" []])
        = some (.ok (some (Expr.negate (Expr.symbol "x" [])))) := by
    simp [reduce, hv, result_ok_singleton, Except.map]
  refine ⟨by decide, hr, ?_⟩
  rw [hr]
  simp

/-- C4, amended. For every well-formed expression `e` in which no `Symbol` node carries
one of the eight reserved names `+ - * / % ^ ! ng`, running the default Restructurer over
`e` returns, without raising, a tree equal to `e`: same kinds, names, literal values,
children in the same order and sign vectors.  (Well-formedness is not used by the
proof.) -/
theorem restructurer_default_identity {N : Type} (e : Expr N)
    (_hwf : e.wellFormed = true) (hnames : e.noReservedSymbol = true) :
    reduce (Restructurer.default (Standard N)) e = some (.ok (some e)) :=
  reduce_default e hnames

theorem restructurer_default_identity_witness :
    reduce (Restructurer.default (Standard Nat))
        (Expr.add [Expr.literal 1,
            Expr.multiply [Expr.symbol "x" [], Expr.symbol "f" [Expr.negate (Expr.literal 2)]]]
          [Sign.plus, Sign.minus])
      = some (.ok (some (Expr.add [Expr.literal 1,
            Expr.multiply [Expr.symbol "x" [], Expr.symbol "f" [Expr.negate (Expr.literal 2)]]]
          [Sign.plus, Sign.minus]))) :=
  restructurer_default_identity _ (by decide) (by decide)

theorem restructurer_stack_discipline_witness :
    ∃ r, visitNode (Restructurer.default (Standard Nat))
        (Expr.divide (Expr.literal 1) (Expr.literal 2))
        [some (Expr.literal 2), some (Expr.literal 1), some (Expr.literal 7)]
      = some (r :: [some (Expr.literal 7)])
      ∧ (r :: [some (Expr.literal 7)]).length + 2 = 3 + 1 :=
  (restructurer_stack_discipline (Restructurer.default (Standard Nat))
    (Expr.literal 0) []).2.1 (Expr.divide (Expr.literal 1) (Expr.literal 2))
    [some (Expr.literal 2), some (Expr.literal 1), some (Expr.literal 7)] (by decide)

/-! ### C6, C7 : `simplify` -/

theorem simplifyLoop_eq_iterate {E : Type} (P : Passes E) (m : Nat) :
    ∀ (k : Nat) (res : E), k + m = 20 → simplifyLoop P k res = (loopBody P)^[m] res := by
  induction m with
  | zero =>
    intro k res hk
    unfold simplifyLoop
    simp [show ¬ k < 20 by omega]
  | succ m ih =>
    intro k res hk
    unfold simplifyLoop
    rw [if_pos (by omega), ih (k + 1) _ (by omega)]
    rfl

theorem loopBody_tracePasses (t : List String) :
    loopBody tracePasses t = t ++ loopBodyNames := by
  simp [loopBody, tracePasses, loopBodyNames]

theorem iterate_loopBody_tracePasses (n : Nat) (t : List String) :
    (loopBody tracePasses)^[n] t = t ++ (List.replicate n loopBodyNames).flatten := by
  induction n generalizing t with
  | zero => simp
  | succ n ih =>
    rw [Function.iterate_succ_apply, ih, loopBody_tracePasses]
    simp [List.replicate_succ]

/-- C6. For every expression `e` and every choice of the passes as functions,
`simplify(e)` is BasicSymbols, ComplexSplitter, Rationalizer once each, then the
seven-pass loop body iterated 20 times, then ComplexExpander, ComplexSplitter,
ComplexNormalizer, GCDLiteral, SizeOneArray, SelfNesting, Negatives once each in that
order; and with passes that log themselves the log of one `simplify` is exactly that
sequence of 150 applications, so no pass is applied outside it. -/
theorem simplify_sequence {E : Type} (P : Passes E) (e : E) :
    simplify P e
        = P.Negatives (P.SelfNesting (P.SizeOneArray (P.GCDLiteral (P.ComplexNormalizer
            (P.ComplexSplitter (P.ComplexExpander
              ((loopBody P)^[20]
                (P.Rationalizer (P.ComplexSplitter (P.BasicSymbols e))))))))))
      ∧ simplify tracePasses []
        = ["BasicSymbols", "ComplexSplitter", "Rationalizer"]
          ++ (List.replicate 20 loopBodyNames).flatten
          ++ ["ComplexExpander", "ComplexSplitter", "ComplexNormalizer", "GCDLiteral",
              "SizeOneArray", "SelfNesting", "Negatives"] := by
  have h : ∀ (Q : Passes E) (x : E), simplify Q x
      = Q.Negatives (Q.SelfNesting (Q.SizeOneArray (Q.GCDLiteral (Q.ComplexNormalizer
          (Q.ComplexSplitter (Q.ComplexExpander
            ((loopBody Q)^[20]
              (Q.Rationalizer (Q.ComplexSplitter (Q.BasicSymbols x)))))))))) := by
    intro Q x
    simp only [simplify, simplifyLoop_eq_iterate Q 20 0 _ rfl]
  refine ⟨h P e, ?_⟩
  simp only [simplify, simplifyLoop_eq_iterate tracePasses 20 0 _ rfl,
    iterate_loopBody_tracePasses]
  simp [tracePasses]

/-- C7, as stated, fails: with passes that log themselves, one run of the loop body
applies ComplexNormalizer first and NumberReducerBasic last, while the composition
`ComplexNormalizer(GCDLiteral(...(NumberReducerBasic(res))))` applies them in the
opposite order. -/
theorem loopBody_order_counterexample :
    loopBody tracePasses [] = ["ComplexNormalizer", "GCDLiteral", "SizeOneArray",
        "SelfNesting", "Negatives", "FirstOrderBasic", "NumberReducerBasic"]
      ∧ specLoopBody tracePasses [] = ["NumberReducerBasic", "FirstOrderBasic", "Negatives",
        "SelfNesting", "SizeOneArray", "GCDLiteral", "ComplexNormalizer"]
      ∧ loopBody tracePasses [] ≠ specLoopBody tracePasses [] := by
  decide

/-- C7, amended. Each iteration of the loop of `simplify` (counter `k < 20`) maps the
current tree `res` to
`NumberReducerBasic(FirstOrderBasic(Negatives(SelfNesting(SizeOneArray(GCDLiteral(
ComplexNormalizer(res)))))))`, that is to the composition NumberReducerBasic ∘
FirstOrderBasic ∘ Negatives ∘ SelfNesting ∘ SizeOneArray ∘ GCDLiteral ∘ ComplexNormalizer,
and goes on with counter `k + 1`. -/
theorem simplifyLoop_iteration {E : Type} (P : Passes E) (k : Nat) (res : E) (hk : k < 20) :
    simplifyLoop P k res
        = simplifyLoop P (k + 1)
            (P.NumberReducerBasic (P.FirstOrderBasic (P.Negatives (P.SelfNesting
              (P.SizeOneArray (P.GCDLiteral (P.ComplexNormalizer res)))))))
      ∧ loopBody P res
        = (P.NumberReducerBasic ∘ P.FirstOrderBasic ∘ P.Negatives ∘ P.SelfNesting
            ∘ P.SizeOneArray ∘ P.GCDLiteral ∘ P.ComplexNormalizer) res := by
  refine ⟨?_, rfl⟩
  rw [simplifyLoop, if_pos hk]
  rfl

theorem simplifyLoop_iteration_witness :
    simplifyLoop tracePasses 19 []
        = simplifyLoop tracePasses (19 + 1)
            (tracePasses.NumberReducerBasic (tracePasses.FirstOrderBasic
              (tracePasses.Negatives (tracePasses.SelfNesting (tracePasses.SizeOneArray
                (tracePasses.GCDLiteral (tracePasses.ComplexNormalizer [])))))))
      ∧ loopBody tracePasses []
        = (tracePasses.NumberReducerBasic ∘ tracePasses.FirstOrderBasic
            ∘ tracePasses.Negatives ∘ tracePasses.SelfNesting ∘ tracePasses.SizeOneArray
            ∘ tracePasses.GCDLiteral ∘ tracePasses.ComplexNormalizer) [] :=
  simplifyLoop_iteration tracePasses 19 [] (by decide)

/-! ### C8, C9 : `render(Number)` -/

/-- C8 (the code at the failing inputs). For the numbers `i`, `-i`, `3+i` and `3-i`
(imaginary part formatting as `"1"` or `"-1"`) `render` returns `"ii"`, `"-ii"`, `"3+ii"`
and `"3-ii"`: the special case sets the text to `"i"` / `"-i"` and the next statement
appends another `"i"`, so the results are not `"i"`, `"-i"`, `"3+i"`, `"3-i"`. -/
theorem render_unit_imaginary :
    render gaussianOps (0, 1) = { one_line := "ii", grid := ["ii"] }
      ∧ render gaussianOps (0, -1) = { one_line := "-ii", grid := ["-ii"] }
      ∧ render gaussianOps (3, 1) = { one_line := "3+ii", grid := ["3+ii"] }
      ∧ render gaussianOps (3, -1) = { one_line := "3-ii", grid := ["3-ii"] }
      ∧ (render gaussianOps (0, 1)).one_line ≠ "i"
      ∧ (render gaussianOps (0, -1)).one_line ≠ "-i"
      ∧ (render gaussianOps (3, 1)).one_line ≠ "3+i"
      ∧ (render gaussianOps (3, -1)).one_line ≠ "3-i" := by
  decide

theorem append_i_ne_zero (s : String) : s ++ "i" ≠ "0" := by
  intro h
  have hd := congrArg String.data h
  rw [String.data_append] at hd
  have hl := congrArg List.length hd
  cases hs : s.data with
  | nil => rw [hs] at hd; simp at hd
  | cons c cs => rw [hs] at hl; simp at hl

/-- C9. For every number whose imaginary part formats as neither `"1"` nor `"-1"`, the
`one_line` of `render` is the real-part text alone when the imaginary part formats as
`"0"`; the imaginary-part text followed by `"i"` when the real part formats as `"0"` and
the imaginary part does not; and otherwise the real-part text, then `"+"` exactly when
the imaginary part is a positive real, then the imaginary-part text, then `"i"`.  In
every case the grid is the single row equal to `one_line`. -/
theorem render_general {N : Type} (F : NumberOps N) (n : N)
    (h1 : F.formatImaginaryPart n ≠ "1") (h2 : F.formatImaginaryPart n ≠ "-1") :
    (render F n).one_line
        = (if F.formatImaginaryPart n = "0" then F.formatRealPart n
           else if F.formatRealPart n = "0" then F.formatImaginaryPart n ++ "i"
           else F.formatRealPart n
             ++ (if F.isPositiveReal (F.makeRealPart (F.exchangeRealAndImaginary n)) = true
                 then "+" else "")
             ++ F.formatImaginaryPart n ++ "i")
      ∧ (render F n).grid = [(render F n).one_line] := by
  unfold render
  simp only [if_neg h1, if_neg h2]
  by_cases h0 : F.formatImaginaryPart n = "0"
  · simp [h0, Rendered.ofString]
  · simp only [ne_eq, h0, not_false_eq_true, if_true, if_false, append_i_ne_zero]
    by_cases hr : F.formatRealPart n = "0"
    · simp [hr, Rendered.ofString]
    · simp [hr, Rendered.ofString, String.append_assoc]

theorem render_general_witness :
    (render gaussianOps (3, -2)).one_line
        = (if gaussianOps.formatImaginaryPart (3, -2) = "0" then gaussianOps.formatRealPart (3, -2)
           else if gaussianOps.formatRealPart (3, -2) = "0"
             then gaussianOps.formatImaginaryPart (3, -2) ++ "i"
           else gaussianOps.formatRealPart (3, -2)
             ++ (if gaussianOps.isPositiveReal
                   (gaussianOps.makeRealPart (gaussianOps.exchangeRealAndImaginary (3, -2))) = true
                 then "+" else "")
             ++ gaussianOps.formatImaginaryPart (3, -2) ++ "i")
      ∧ (render gaussianOps (3, -2)).grid = [(render gaussianOps (3, -2)).one_line] :=
  render_general gaussianOps (3, -2) (by decide) (by decide)

/-! ### C10 : `Parser::parse` when tokenizing fails -/

/-- C10. For every input on which the tokenizer fails, `Parser::parse` returns the empty
expression and leaves `stopLocation` at the failing position the tokenizer reports;
token parsing and tree building are not run: the outcome is the same whatever
`parseTokens`, the number formatter and the Builder are. -/
theorem parse_tokenizer_failure {S T N E : Type} (deps : ParserDeps S T N E)
    (st : ParserState S) (source : String)
    (hfail : (deps.tokenizePriority source (scannersFor deps st)).success = false) :
    (parse deps st source).1 = none
      ∧ (parse deps st source).2.stopLocation
          = (deps.tokenizePriority source (scannersFor deps st)).stopLocation
      ∧ ∀ (parseTokens : ParserState S → List T → Bool × List Command × ParserState S)
          (format : String → Option N) (eBuilder : Builder N E),
          parse { deps with parseTokens := parseTokens, format := format,
                            eBuilder := eBuilder } st source
            = parse deps st source := by
  refine ⟨?_, ?_, ?_⟩
  · simp [parse, hfail]
  · simp [parse, hfail]
  · intro parseTokens format eBuilder
    have hfail2 : (deps.tokenizePriority source
        (scannersFor { deps with parseTokens := parseTokens, format := format,
                                 eBuilder := eBuilder } st)).success = false := hfail
    simp only [parse, hfail, hfail2]
    rfl

theorem parse_tokenizer_failure_witness :
    (parse charDeps ⟨[], 0⟩ "1+?x").1 = none
      ∧ (parse charDeps ⟨[], 0⟩ "1+?x").2.stopLocation = 2 := by
  have h := parse_tokenizer_failure charDeps ⟨[], 0⟩ "1+?x" (by decide)
  exact ⟨h.1, h.2.1.trans (by decide)⟩

/-! ### C11, C13 : `Parser::parse` and the parser's fields -/

theorem parse_of_tokenized {S T N E : Type} (deps : ParserDeps S T N E)
    (st : ParserState S) (source : String)
    (htok : (deps.tokenizePriority source (scannersFor deps st)).success = true) :
    parse deps st source
      = (if (deps.parseTokens ⟨scannersFor deps st, 0⟩
              (deps.tokenizePriority source (scannersFor deps st)).tokens).1 = true
          then buildExpression deps.format deps.eBuilder
            (deps.parseTokens ⟨scannersFor deps st, 0⟩
              (deps.tokenizePriority source (scannersFor deps st)).tokens).2.1
          else none,
         (deps.parseTokens ⟨scannersFor deps st, 0⟩
            (deps.tokenizePriority source (scannersFor deps st)).tokens).2.2) := by
  simp only [parse, htok]
  cases (deps.parseTokens ⟨scannersFor deps st, 0⟩
    (deps.tokenizePriority source (scannersFor deps st)).tokens).1 <;> simp

/-- C11, as stated, fails: on the input `1x`, whose literal `x` starts at offset 1 and is
rejected by the number formatter during tree building, `Parser::parse` returns the empty
expression with `stopLocation` at offset 0, the start of the input. -/
theorem parse_format_rejection_counterexample :
    "1x".data.drop 1 = "x".data
      ∧ (charDepsRejectX.parseTokens ⟨['1', '+', 'x'], 0⟩ ['1', 'x']).2.1
          = [⟨NodeType.literal, "1", 0⟩, ⟨NodeType.literal, "x", 0⟩]
      ∧ charDepsRejectX.format "x" = none
      ∧ (parse charDepsRejectX ⟨[], 0⟩ "1x").1 = none
      ∧ (parse charDepsRejectX ⟨[], 0⟩ "1x").2.stopLocation = 0
      ∧ (parse charDepsRejectX ⟨[], 0⟩ "1x").2.stopLocation ≠ 1 := by
  decide

/-- C11, amended. Whenever `Parser::parse` returns the empty expression because the
number formatter rejected a literal during tree building, `stopLocation` (like every
field of the parser) is left as `parseTokens` left it, whichever literal was rejected and
whatever the formatter and Builder are; it is the start of the input when `parseTokens`
does not move it. -/
theorem parse_format_rejection {S T N E : Type} (deps : ParserDeps S T N E)
    (st : ParserState S) (source : String) (pre post : List Command) (c : Command)
    (bst : BuildState E)
    (htok : (deps.tokenizePriority source (scannersFor deps st)).success = true)
    (hparsed : (deps.parseTokens ⟨scannersFor deps st, 0⟩
        (deps.tokenizePriority source (scannersFor deps st)).tokens).1 = true)
    (hcmds : (deps.parseTokens ⟨scannersFor deps st, 0⟩
        (deps.tokenizePriority source (scannersFor deps st)).tokens).2.1 = pre ++ c :: post)
    (hreach : buildLoop deps.format deps.eBuilder pre BuildState.init = some bst)
    (hlit : c.nodeType = NodeType.literal) (hrej : deps.format c.nodeName = none) :
    (parse deps st source).1 = none
      ∧ (parse deps st source).2
          = (deps.parseTokens ⟨scannersFor deps st, 0⟩
              (deps.tokenizePriority source (scannersFor deps st)).tokens).2.2
      ∧ (∀ (format : String → Option N) (eBuilder : Builder N E),
          (parse { deps with format := format, eBuilder := eBuilder } st source).2
            = (parse deps st source).2)
      ∧ ((∀ s ts, (deps.parseTokens s ts).2.2.stopLocation = s.stopLocation) →
          (parse deps st source).2.stopLocation = 0) := by
  have h := parse_of_tokenized deps st source htok
  have hnone : buildExpression deps.format deps.eBuilder (pre ++ c :: post) = none := by
    have hstep : buildStep deps.format deps.eBuilder bst c = none := by
      simp [buildStep, hlit, hrej]
    unfold buildExpression
    rw [buildLoop_append, hreach]
    simp [buildLoop, hstep]
  refine ⟨?_, ?_, ?_, ?_⟩
  · rw [h, hparsed, hcmds]; simpa using hnone
  · rw [h]
  · intro format eBuilder
    have h2 := parse_of_tokenized { deps with format := format, eBuilder := eBuilder }
      st source htok
    rw [h, h2]
    rfl
  · intro hkeep
    rw [h]
    exact hkeep _ _

theorem parse_format_rejection_witness :
    (parse charDepsRejectX ⟨[], 5⟩ "1x+").1 = none
      ∧ (parse charDepsRejectX ⟨[], 5⟩ "1x+").2.stopLocation = 0 := by
  have h := parse_format_rejection charDepsRejectX ⟨[], 5⟩ "1x+"
    [⟨NodeType.literal, "1", 0⟩] [⟨NodeType.literal, "+", 0⟩] ⟨NodeType.literal, "x", 0⟩
    ⟨[some "1"], []⟩ (by decide) (by decide) (by decide)
    (by simp [buildLoop, buildStep, BuildState.init, charDepsRejectX, charDeps, echoBuilder])
    rfl (by decide)
  exact ⟨h.1, h.2.2.2 (fun _ _ => rfl)⟩

/-- C13, as stated, fails: a first call of `Parser::parse` on `1+?x` with an empty
scanner list and `stopLocation` at offset 7 leaves the scanner list filled and
`stopLocation` at offset 2; a call on `1` with the scanners in place still moves
`stopLocation` from 7 to the start of the input. -/
theorem parse_changes_fields_counterexample :
    (parse charDeps ⟨[], 7⟩ "1+?x").2.scanners = ['1', '+', 'x']
      ∧ (parse charDeps ⟨[], 7⟩ "1+?x").2.scanners ≠ []
      ∧ (parse charDeps ⟨[], 7⟩ "1+?x").2.stopLocation = 2
      ∧ (parse charDeps ⟨[], 7⟩ "1+?x").2.stopLocation ≠ 7
      ∧ (parse charDeps ⟨['1', '+', 'x'], 7⟩ "1").1 = some "1"
      ∧ (parse charDeps ⟨['1', '+', 'x'], 7⟩ "1").2.stopLocation = 0
      ∧ (parse charDeps ⟨['1', '+', 'x'], 7⟩ "1").2.stopLocation ≠ 7 := by
  decide

/-- C13, amended. A call to `Parser::parse` leaves a non-empty scanner list equal to its
value before the call (an empty one is filled by `buildScanners`) but overwrites
`stopLocation`: with the tokenizer's failing position when tokenizing fails, and
otherwise with the start of the input, after which `parseTokens` is handed the fields and
the call ends with the fields as `parseTokens` left them. -/
theorem parse_fields {S T N E : Type} (deps : ParserDeps S T N E)
    (st : ParserState S) (source : String) (hsc : st.scanners ≠ []) :
    scannersFor deps st = st.scanners
      ∧ (parse deps st source).2
          = (if (deps.tokenizePriority source st.scanners).success = true
              then (deps.parseTokens ⟨st.scanners, 0⟩
                      (deps.tokenizePriority source st.scanners).tokens).2.2
              else ⟨st.scanners, (deps.tokenizePriority source st.scanners).stopLocation⟩) := by
  have hs : scannersFor deps st = st.scanners := by
    unfold scannersFor
    cases hl : st.scanners with
    | nil => exact absurd hl hsc
    | cons a l => simp
  refine ⟨hs, ?_⟩
  cases htok : (deps.tokenizePriority source st.scanners).success with
  | true =>
    rw [parse_of_tokenized deps st source (by rw [hs]; exact htok)]
    simp [hs]
  | false =>
    simp [parse, hs, htok]

theorem parse_fields_witness :
    scannersFor charDeps ⟨['1', '+', 'x'], 7⟩ = ['1', '+', 'x']
      ∧ (parse charDeps ⟨['1', '+', 'x'], 7⟩ "1+?x").2
          = (if (charDeps.tokenizePriority "1+?x" ['1', '+', 'x']).success = true
              then (charDeps.parseTokens ⟨['1', '+', 'x'], 0⟩
                      (charDeps.tokenizePriority "1+?x" ['1', '+', 'x']).tokens).2.2
              else ⟨['1', '+', 'x'],
                (charDeps.tokenizePriority "1+?x" ['1', '+', 'x']).stopLocation⟩) :=
  parse_fields charDeps ⟨['1', '+', 'x'], 7⟩ "1+?x" (by decide)

/-! ### C14 : early exit from the loop of `simplify` -/

theorem iterate_fixed {E : Type} (f : E → E) (x : E) (h : f x = x) (n : Nat) :
    f^[n] x = x := by
  induction n with
  | zero => rfl
  | succ n ih => rw [Function.iterate_succ_apply, h, ih]

theorem earlyExitLoop_eq {E : Type} [DecidableEq E] (P : Passes E) (m : Nat) :
    ∀ (k : Nat) (res : E), k + m = 20 → earlyExitLoop P k res = simplifyLoop P k res := by
  induction m with
  | zero =>
    intro k res hk
    unfold earlyExitLoop simplifyLoop
    simp [show ¬ k < 20 by omega]
  | succ m ih =>
    intro k res hk
    unfold earlyExitLoop
    rw [if_pos (by omega)]
    by_cases hfix : loopBody P res = res
    · rw [if_pos hfix, simplifyLoop_eq_iterate P (m + 1) k res hk]
      exact (iterate_fixed (loopBody P) res hfix (m + 1)).symm
    · rw [if_neg hfix, ih (k + 1) _ (by omega)]
      conv_rhs => unfold simplifyLoop
      rw [if_pos (by omega)]

/-- C14. With every pass a function on expressions, the variant of `simplify` that leaves
the loop as soon as one full run of the seven-pass body returns a tree identical to the
tree it was given produces, for every input, the same final result as the implemented
`simplify`, which always runs all 20 iterations. -/
theorem simplifyEarlyExit_eq_simplify {E : Type} [DecidableEq E] (P : Passes E) (e : E) :
    simplifyEarlyExit P e = simplify P e := by
  simp only [simplifyEarlyExit, simplify, earlyExitLoop_eq P 20 0 _ rfl]

/-! ### C15 : `Restructurer::getChildren` -/

/-- C15. `Restructurer::getChildren`, called for a node with `n` children when the
results `r1 .. rn` of those children were pushed on the stack `s` in that order (`rn` on
top), returns the vector `[r1, .., rn]` in original child order and leaves the stack with
exactly those `n` entries removed: the lower entries `s`, unchanged. -/
theorem getChildren_original_order {E : Type} (rs s : List (Ptr E)) :
    getChildren rs.length (rs.reverse ++ s) = some (rs, s) := by
  rw [getChildren_eq rs.length (rs.reverse ++ s) (by simp)]
  have h1 : (rs.reverse ++ s).take rs.length = rs.reverse := by
    rw [List.take_append_of_le_length (by simp)]
    exact List.take_of_length_le (by simp)
  have h2 : (rs.reverse ++ s).drop rs.length = s := by
    rw [List.drop_append_of_le_length (by simp), List.drop_of_length_le (by simp)]
    rfl
  rw [h1, h2, List.reverse_reverse]

/-! ### C16 : the default Restructurer and the Add invariant -/

theorem nonEmptyChildren_length {E : Type} :
    ∀ (ps : List (Ptr E)) (rs : List E), nonEmptyChildren ps = some rs → rs.length = ps.length
  | [], rs, h => by simp only [nonEmptyChildren, Option.some.injEq] at h; subst h; rfl
  | none :: ps, rs, h => by simp [nonEmptyChildren] at h
  | some e :: ps, rs, h => by
    simp only [nonEmptyChildren, Option.map_eq_some'] at h
    obtain ⟨rs1, h1, h2⟩ := h
    subst h2
    simp [nonEmptyChildren_length ps rs1 h1]

theorem nonEmptyChildren_addInvariant {N : Type} :
    ∀ (ps : List (Ptr (Expr N))) (rs : List (Expr N)),
      (∀ p ∈ ps, ptrAddInvariant p = true) → nonEmptyChildren ps = some rs →
      addInvariantList rs = true
  | [], rs, _, h => by simp only [nonEmptyChildren, Option.some.injEq] at h; subst h; rfl
  | none :: ps, rs, _, h => by simp [nonEmptyChildren] at h
  | some e :: ps, rs, hall, h => by
    simp only [nonEmptyChildren, Option.map_eq_some'] at h
    obtain ⟨rs1, h1, h2⟩ := h
    subst h2
    have he : e.addInvariant = true := hall (some e) (by simp)
    have hrest := nonEmptyChildren_addInvariant ps rs1
      (fun p hp => hall p (List.mem_cons_of_mem _ hp)) h1
    simp [addInvariantList, he, hrest]

theorem Standard_add_addInvariant {N : Type} (ps : List (Ptr (Expr N))) (signs : List Sign)
    (hlen : ps.length = signs.length) (hall : ∀ p ∈ ps, ptrAddInvariant p = true) :
    ptrAddInvariant ((Standard N).add ps signs) = true := by
  simp only [Standard]
  cases h : nonEmptyChildren ps with
  | none => rfl
  | some rs =>
    have h1 := nonEmptyChildren_length ps rs h
    have h2 := nonEmptyChildren_addInvariant ps rs hall h
    simp [ptrAddInvariant, Expr.addInvariant, h1, hlen, h2]

theorem Standard_call_addInvariant {N : Type} (name : String) (ps : List (Ptr (Expr N)))
    (hall : ∀ p ∈ ps, ptrAddInvariant p = true) :
    ptrAddInvariant ((Standard N).call name ps) = true := by
  simp only [Standard]
  cases h : nonEmptyChildren ps with
  | none => rfl
  | some rs =>
    have h2 := nonEmptyChildren_addInvariant ps rs hall h
    simp only
    split_ifs
    · simp [ptrAddInvariant, Expr.addInvariant, h2]
    · split
      · simp only [addInvariantList, Bool.and_true, Bool.and_eq_true] at h2
        simp [ptrAddInvariant, Expr.addInvariant, addInvariantList, h2.1, h2.2]
      · rfl
    · simpa [ptrAddInvariant, Expr.addInvariant] using h2
    all_goals first
      | (split
         · simp only [addInvariantList, Bool.and_true, Bool.and_eq_true] at h2
           first
             | simp [ptrAddInvariant, Expr.addInvariant, h2.1, h2.2]
             | simpa [ptrAddInvariant, Expr.addInvariant] using h2
         · rfl)
      | simpa [ptrAddInvariant, Expr.addInvariant] using h2
theorem visitWith_ptrs {N : Type} (exp : Expr N) (m : List (Ptr (Expr N)) → Ptr (Expr N))
    (ps s : List (Ptr (Expr N))) (h : ps.length = exp.numberOfChildren)
    (hm : ptrAddInvariant (m ps) = true) :
    ∃ p, visitWith exp m (ps.reverse ++ s) = some (p :: s) ∧ ptrAddInvariant p = true :=
  ⟨m ps, visitWith_results exp m ps s h, hm⟩

theorem mem_pair {α : Type} {P : α → Prop} {a b : α} (ha : P a) (hb : P b) :
    ∀ p ∈ [a, b], P p := by
  intro p hp
  simp only [List.mem_cons, List.mem_singleton, List.not_mem_nil, or_false] at hp
  rcases hp with h | h <;> rw [h] <;> assumption

theorem mem_single {α : Type} {P : α → Prop} {a : α} (ha : P a) : ∀ p ∈ [a], P p := by
  intro p hp
  simp only [List.mem_singleton] at hp
  rw [hp]; exact ha

mutual
/-- The default Restructurer over the standard Builder pushes one pointer per visit, and
the tree it points to, if any, satisfies the Add invariant when the visited tree does. -/
theorem visitExpression_addInvariant {N : Type} :
    ∀ (e : Expr N) (s : List (Ptr (Expr N))), e.addInvariant = true →
      ∃ p, visitExpression (Restructurer.default (Standard N)) e s = some (p :: s)
        ∧ ptrAddInvariant p = true
  | .literal number, s, _ => by
    simp only [visitExpression, visitLiteral]
    exact visitWith_ptrs (.literal number) _ [] s rfl rfl
  | .symbol name cs, s, h => by
    simp only [Expr.addInvariant] at h
    obtain ⟨ps, hlen, hps, hall⟩ := visitChildren_addInvariant cs s h
    simp only [visitExpression, hps, Option.some_bind, visitSymbol]
    exact visitWith_ptrs (.symbol name cs) _ ps s hlen
      (Standard_call_addInvariant name ps hall)
  | .add cs signs, s, h => by
    simp only [Expr.addInvariant, Bool.and_eq_true, decide_eq_true_eq] at h
    obtain ⟨ps, hlen, hps, hall⟩ := visitChildren_addInvariant cs s h.2
    simp only [visitExpression, hps, Option.some_bind, visitAdd]
    exact visitWith_ptrs (.add cs signs) _ ps s hlen
      (Standard_add_addInvariant ps signs (by rw [hlen]; exact h.1) hall)
  | .multiply cs, s, h => by
    simp only [Expr.addInvariant] at h
    obtain ⟨ps, hlen, hps, hall⟩ := visitChildren_addInvariant cs s h
    simp only [visitExpression, hps, Option.some_bind, visitMultiply]
    exact visitWith_ptrs (.multiply cs) _ ps s hlen
      (Standard_call_addInvariant "*" ps hall)
  | .negate c, s, h => by
    simp only [Expr.addInvariant] at h
    obtain ⟨p, hp, hinv⟩ := visitExpression_addInvariant c s h
    simp only [visitExpression, hp, Option.some_bind, visitNegate]
    exact visitWith_ptrs (.negate c) _ [p] s rfl
      (Standard_call_addInvariant "ng" [p] (mem_single hinv))
  | .factorial c, s, h => by
    simp only [Expr.addInvariant] at h
    obtain ⟨p, hp, hinv⟩ := visitExpression_addInvariant c s h
    simp only [visitExpression, hp, Option.some_bind, visitFactorial]
    exact visitWith_ptrs (.factorial c) _ [p] s rfl
      (Standard_call_addInvariant "!" [p] (mem_single hinv))
  | .divide t b, s, h => by
    simp only [Expr.addInvariant, Bool.and_eq_true] at h
    obtain ⟨p1, hp1, hinv1⟩ := visitExpression_addInvariant t s h.1
    obtain ⟨p2, hp2, hinv2⟩ := visitExpression_addInvariant b (p1 :: s) h.2
    simp only [visitExpression, hp1, hp2, Option.some_bind, visitDivide]
    exact visitWith_ptrs (.divide t b) _ [p1, p2] s rfl
      (Standard_call_addInvariant "/" [p1, p2] (mem_pair hinv1 hinv2))
  | .modulus t b, s, h => by
    simp only [Expr.addInvariant, Bool.and_eq_true] at h
    obtain ⟨p1, hp1, hinv1⟩ := visitExpression_addInvariant t s h.1
    obtain ⟨p2, hp2, hinv2⟩ := visitExpression_addInvariant b (p1 :: s) h.2
    simp only [visitExpression, hp1, hp2, Option.some_bind, visitModulus]
    exact visitWith_ptrs (.modulus t b) _ [p1, p2] s rfl
      (Standard_call_addInvariant "%" [p1, p2] (mem_pair hinv1 hinv2))
  | .power b e, s, h => by
    simp only [Expr.addInvariant, Bool.and_eq_true] at h
    obtain ⟨p1, hp1, hinv1⟩ := visitExpression_addInvariant b s h.1
    obtain ⟨p2, hp2, hinv2⟩ := visitExpression_addInvariant e (p1 :: s) h.2
    simp only [visitExpression, hp1, hp2, Option.some_bind, visitPower]
    exact visitWith_ptrs (.power b e) _ [p1, p2] s rfl
      (Standard_call_addInvariant "^" [p1, p2] (mem_pair hinv1 hinv2))
/-- The default Restructurer over the standard Builder pushes one pointer per child. -/
theorem visitChildren_addInvariant {N : Type} :
    ∀ (cs : List (Expr N)) (s : List (Ptr (Expr N))), addInvariantList cs = true →
      ∃ ps : List (Ptr (Expr N)), ps.length = cs.length
        ∧ visitChildren (Restructurer.default (Standard N)) cs s = some (ps.reverse ++ s)
        ∧ ∀ p ∈ ps, ptrAddInvariant p = true
  | [], s, _ => ⟨[], rfl, rfl, by simp⟩
  | c :: cs, s, h => by
    simp only [addInvariantList, Bool.and_eq_true] at h
    obtain ⟨p, hp, hinv⟩ := visitExpression_addInvariant c s h.1
    obtain ⟨ps, hlen, hps, hall⟩ := visitChildren_addInvariant cs (p :: s) h.2
    refine ⟨p :: ps, by simp [hlen], ?_, ?_⟩
    · simp only [visitChildren, hp, Option.some_bind, hps]
      simp
    · intro q hq
      rcases List.mem_cons.mp hq with h1 | h1
      · rw [h1]; exact hinv
      · exact hall q h1
end

/-- C16. The default Restructurer preserves the Add invariant: for every input tree in
which every `Add` node has as many signs as children, `reduce` returns a pointer without
raising, and every `Add` node of the tree it points to has `|children| == |signs|` (the
pointer is the input tree itself when no `Symbol` node carries a reserved name); the
rebuilt `Add` is the Builder's `add` on exactly the `numberOfChildren` child results, in
child order, together with the original node's sign vector. -/
theorem restructurer_default_addInvariant {N : Type} (e : Expr N)
    (hinv : e.addInvariant = true) :
    (∃ p, reduce (Restructurer.default (Standard N)) e = some (.ok p)
        ∧ ptrAddInvariant p = true
        ∧ (e.noReservedSymbol = true → p = some e))
      ∧ (∀ (eBuilder : Builder N (Expr N)) (cs : List (Expr N)) (signs : List Sign)
          (rs s : List (Ptr (Expr N))), rs.length = cs.length →
          visitAdd (Restructurer.default eBuilder) cs signs (rs.reverse ++ s)
            = some (eBuilder.add rs signs :: s)) := by
  constructor
  · obtain ⟨p, hp, hpinv⟩ := visitExpression_addInvariant e [] hinv
    refine ⟨p, ?_, hpinv, ?_⟩
    · simp [reduce, hp, result_ok_singleton, Except.map]
    · intro hnames
      have h2 := visitExpression_default e [] hnames
      rw [hp] at h2
      simpa using h2
  · intro eBuilder cs signs rs s hlen
    exact visitWith_results (.add cs signs) _ rs s hlen

theorem restructurer_default_addInvariant_witness :
    (∃ p, reduce (Restructurer.default (Standard Nat))
          (Expr.symbol "-" [Expr.add [Expr.literal 1, Expr.literal 2] [Sign.plus, Sign.minus],
            Expr.literal 3]) = some (.ok p)
        ∧ ptrAddInvariant p = true
        ∧ ((Expr.symbol "-" [Expr.add [Expr.literal 1, Expr.literal 2] [Sign.plus, Sign.minus],
            Expr.literal 3]).noReservedSymbol = true →
          p = some (Expr.symbol "-"
            [Expr.add [Expr.literal 1, Expr.literal 2] [Sign.plus, Sign.minus],
              Expr.literal 3]))) :=
  (restructurer_default_addInvariant
    (Expr.symbol "-" [Expr.add [Expr.literal 1, Expr.literal 2] [Sign.plus, Sign.minus],
      Expr.literal 3]) (by decide)).1

/-! ### C17 : tree building undoes post-order linearisation -/

mutual
/-- Running the loop of `buildExpression` over the linearisation of `t` pushes `t`. -/
theorem buildLoop_linearise {N E : Type} (format : String → Option N)
    (eBuilder : Builder N E) (toExpr : CommandTree → E) :
    ∀ (t : CommandTree) (rest : List Command) (stack : List (Ptr E)),
      Rebuilds format eBuilder toExpr t →
      buildLoop format eBuilder (t.linearise ++ rest) ⟨stack, []⟩
        = buildLoop format eBuilder rest ⟨some (toExpr t) :: stack, []⟩
  | .literal text, rest, stack, h => by
    simp only [Rebuilds] at h
    obtain ⟨number, hfmt, hlit⟩ := h
    simp [CommandTree.linearise, buildLoop, buildStep, hfmt, hlit]
  | .symbol name cs, rest, stack, h => by
    simp only [Rebuilds] at h
    obtain ⟨hcall, hcs⟩ := h
    simp only [CommandTree.linearise, List.append_assoc]
    rw [buildLoop_lineariseList format eBuilder toExpr cs _ stack hcs]
    have hp := popChildren_eq cs.length
      ((cs.map fun c => some (toExpr c)).reverse ++ stack) ([] : List (Ptr E)) (by simp)
    have h1 : ((cs.map fun c => some (toExpr c)).reverse ++ stack).take cs.length
        = (cs.map fun c => some (toExpr c)).reverse := by
      rw [List.take_append_of_le_length (by simp)]
      exact List.take_of_length_le (by simp)
    have h2 : ((cs.map fun c => some (toExpr c)).reverse ++ stack).drop cs.length = stack := by
      rw [List.drop_append_of_le_length (by simp), List.drop_of_length_le (by simp)]
      rfl
    rw [h1, h2, List.reverse_reverse, List.append_nil] at hp
    simp [buildLoop, buildStep, hp, hcall]
/-- Running the loop over the linearisations of a child list pushes the children. -/
theorem buildLoop_lineariseList {N E : Type} (format : String → Option N)
    (eBuilder : Builder N E) (toExpr : CommandTree → E) :
    ∀ (cs : List CommandTree) (rest : List Command) (stack : List (Ptr E)),
      RebuildsList format eBuilder toExpr cs →
      buildLoop format eBuilder (lineariseList cs ++ rest) ⟨stack, []⟩
        = buildLoop format eBuilder rest
            ⟨(cs.map fun c => some (toExpr c)).reverse ++ stack, []⟩
  | [], rest, stack, _ => by simp [lineariseList]
  | c :: cs, rest, stack, h => by
    simp only [RebuildsList] at h
    simp only [lineariseList, List.append_assoc]
    rw [buildLoop_linearise format eBuilder toExpr c _ stack h.1,
      buildLoop_lineariseList format eBuilder toExpr cs rest _ h.2]
    simp
end

/-- C17. Tree building undoes post-order linearisation: for every tree `t`, read as the
expression `toExpr t`, `Parser::buildExpression` maps the command list that emits each
node's children left to right and then the node's own command back to `toExpr t`,
provided that at every node of `t` the formatter maps the literal's text back to its
number and the Builder constructs exactly the node named with the children given. -/
theorem buildExpression_linearise {N E : Type} (format : String → Option N)
    (eBuilder : Builder N E) (toExpr : CommandTree → E) (t : CommandTree)
    (h : Rebuilds format eBuilder toExpr t) :
    buildExpression format eBuilder t.linearise = some (toExpr t) := by
  have hl := buildLoop_linearise format eBuilder toExpr t [] [] h
  rw [List.append_nil] at hl
  simp [buildExpression, BuildState.init, hl, buildLoop]

theorem buildExpression_linearise_witness :
    buildExpression (fun s => some s) treeBuilder
        (CommandTree.symbol "+" [CommandTree.literal "1",
          CommandTree.symbol "f" [CommandTree.literal "2", CommandTree.symbol "x" []]]).linearise
      = some (id (CommandTree.symbol "+" [CommandTree.literal "1",
          CommandTree.symbol "f" [CommandTree.literal "2", CommandTree.symbol "x" []]])) :=
  buildExpression_linearise (fun s => some s) treeBuilder id _
    (by simp [Rebuilds, RebuildsList, treeBuilder, nonEmptyChildren])

/-! ### BaseArray: casts, wrapping and the window -/

theorem wrapInt_isInt (x : Int) : isInt (wrapInt x) := by
  unfold isInt wrapInt
  omega

theorem wrapInt_of_isInt (x : Int) (h1 : -2 ^ 31 ≤ x) (h2 : x < 2 ^ 31) : wrapInt x = x := by
  unfold wrapInt
  omega

theorem toInt_of_lt (n : Nat) (h : n < 2 ^ 31) : toInt n = (n : Int) := by
  unfold toInt
  have h1 : n % 2 ^ 32 = n := Nat.mod_eq_of_lt (by omega)
  rw [h1, if_pos h]

/-- Adding a cast argument and wrapping is adding the argument and wrapping. -/
theorem wrapInt_add_toInt (a : Int) (u : Nat) :
    wrapInt (a + toInt u) = wrapInt (a + (u : Int)) := by
  unfold toInt wrapInt
  split <;> omega

theorem wrapInt_sub_toInt (a : Int) (u : Nat) :
    wrapInt (a - toInt u) = wrapInt (a - (u : Int)) := by
  unfold toInt wrapInt
  split <;> omega

theorem toUnsigned_wrapInt (x : Int) (h0 : 0 ≤ x) (h : x < 2 ^ 32) :
    ((toUnsigned (wrapInt x) : Nat) : Int) = x := by
  unfold toUnsigned wrapInt
  omega

theorem BaseArray.eq_of_fields (b1 b : BaseArray) (h : b1.sameStorage b)
    (hsp : b1.startPadding = b.startPadding) (hsn : b1.startNumbers = b.startNumbers)
    (he : b1.end_ = b.end_) : b1 = b := by
  obtain ⟨f1, sp1, sn1, e1, m1, ds1, d1, p1, q1, r1⟩ := b1
  obtain ⟨f, sp, sn, e, m, ds, d, p, q, r⟩ := b
  obtain ⟨hm, hds, hd, hf⟩ := h
  simp only at hm hds hd hf hsp hsn he
  subst hm hds hd hf hsp hsn he
  rfl

theorem readStorage_congr (s : Bool) (b1 b : BaseArray) (h : b1.sameStorage b) (t : Int) :
    b1.readStorage s t = b.readStorage s t := by
  obtain ⟨hm, hds, hd, _⟩ := h
  unfold BaseArray.readStorage
  rw [hm, hds, hd]

theorem readStorage_defined (s : Bool) (b : BaseArray) (t : Int) (h0 : 0 ≤ t)
    (h1 : t < (b.m_digits_size : Int)) : ∃ d, b.readStorage s t = .ok d := by
  unfold BaseArray.readStorage
  split
  · exact ⟨_, rfl⟩
  · rw [if_pos ⟨h0, h1⟩]
    exact ⟨_, rfl⟩

theorem readStorage_cases (s : Bool) (b : BaseArray) (t : Int) :
    (∃ d, b.readStorage s t = .ok d) ∨ b.readStorage s t = .error .undefined := by
  unfold BaseArray.readStorage
  split
  · exact Or.inl ⟨_, rfl⟩
  · split
    · exact Or.inl ⟨_, rfl⟩
    · exact Or.inr rfl

/-- The value of `size()`: the exact length `end - startPadding` of the window, whenever
`startPadding <= end`. -/
theorem size_cast (b : BaseArray) (h0 : b.startPadding ≤ b.end_) :
    ((b.size : Nat) : Int) = b.end_ - b.startPadding := by
  have h1 := b.end_int
  have h2 := b.startPadding_int
  unfold isInt at h1 h2
  exact toUnsigned_wrapInt _ (by omega) (by omega)

/-- The position `operator[]` computes for an index below `2 ^ 32` whose exact position
`startPadding + index` is at most `INT_MAX`. -/
theorem get_temp (b : BaseArray) (index : Nat)
    (h : b.startPadding + (index : Int) < 2 ^ 31) :
    wrapInt (b.startPadding + toInt index) = b.startPadding + (index : Int) := by
  have h2 := b.startPadding_int
  unfold isInt at h2
  rw [wrapInt_add_toInt]
  exact wrapInt_of_isInt _ (by omega) h

/-- The loop of `removeTrailingZeros` from any state: after `j` steps over zero digits,
`j` at most the length of the window, it returns at the end of the window or at a
non-zero digit, or it reads outside the storage. -/
theorem removeTrailingZerosLoop_spec (s : Bool) (m : Nat) :
    ∀ (b : BaseArray) (count : Nat), (b.end_ - b.startPadding).toNat = m →
      ∃ j : Nat, j ≤ m
        ∧ (∀ t : Int, b.startPadding ≤ t → t < b.startPadding + (j : Int) →
            b.readStorage s t = .ok 0)
        ∧ ((∃ b1, BaseArray.removeTrailingZerosLoop s b count = .ok (count + j, b1)
              ∧ b1.startPadding = b.startPadding + (j : Int)
              ∧ b1.startNumbers = wrapInt (b.startNumbers + (j : Int))
              ∧ b1.end_ = b.end_ ∧ b1.sameStorage b
              ∧ (b.startPadding + (j : Int) < b.end_ →
                  ∃ d, b.readStorage s (b.startPadding + (j : Int)) = .ok d ∧ d ≠ 0))
          ∨ (BaseArray.removeTrailingZerosLoop s b count = .error .undefined
              ∧ b.startPadding + (j : Int) < b.end_
              ∧ b.readStorage s (b.startPadding + (j : Int)) = .error .undefined)) := by
  induction m with
  | zero =>
    intro b count hm
    have hge : ¬ b.startPadding < b.end_ := by omega
    have hsn := b.startNumbers_int
    unfold isInt at hsn
    refine ⟨0, le_refl _, ?_, Or.inl ⟨b, ?_, ?_, ?_, rfl, ⟨rfl, rfl, rfl, rfl⟩, ?_⟩⟩
    · intro t h1 h2; simp at h2; omega
    · rw [BaseArray.removeTrailingZerosLoop, if_neg hge]; rfl
    · simp
    · simp only [Nat.cast_zero, add_zero]
      exact (wrapInt_of_isInt _ hsn.1 hsn.2).symm
    · intro h; simp at h; omega
  | succ m ih =>
    intro b count hm
    have hlt : b.startPadding < b.end_ := by omega
    have he := b.end_int
    have hsp := b.startPadding_int
    have hsn := b.startNumbers_int
    unfold isInt at he hsp hsn
    rcases readStorage_cases s b b.startPadding with ⟨d, hd⟩ | hund
    · by_cases hz : d = 0
      · subst hz
        have hstep : ∃ b2 : BaseArray, b2.startPadding = b.startPadding + 1
            ∧ b2.startNumbers = wrapInt (b.startNumbers + 1) ∧ b2.end_ = b.end_
            ∧ b2.sameStorage b
            ∧ BaseArray.removeTrailingZerosLoop s b count
                = BaseArray.removeTrailingZerosLoop s b2 (count + 1) := by
          refine ⟨{ b with startPadding := wrapInt (b.startPadding + 1),
                           startNumbers := wrapInt (b.startNumbers + 1),
                           startPadding_int := wrapInt_isInt _,
                           startNumbers_int := wrapInt_isInt _ },
            wrapInt_of_isInt _ (by omega) (by omega), rfl, rfl, ⟨rfl, rfl, rfl, rfl⟩, ?_⟩
          rw [BaseArray.removeTrailingZerosLoop, if_pos hlt, hd]
          simp
        obtain ⟨b2, k1, k2, k3, k4, hunfold⟩ := hstep
        obtain ⟨j, hjm, hzero, hres⟩ := ih b2 (count + 1) (by rw [k1, k3]; omega)
        rw [k1] at hzero hres
        rw [k2, k3] at hres
        simp only [readStorage_congr s b2 b k4] at hzero hres
        have e1 : b.startPadding + 1 + (j : Int) = b.startPadding + ((j + 1 : Nat) : Int) := by
          push_cast; omega
        have e2 : count + 1 + j = count + (j + 1) := by omega
        refine ⟨j + 1, by omega, ?_, ?_⟩
        · intro t h1 h2
          by_cases ht : t = b.startPadding
          · rw [ht]; exact hd
          · exact hzero t (by omega) (by push_cast at h2; omega)
        · rcases hres with ⟨b1, hb1, g1, g2, g3, g4, g5⟩ | ⟨herr, g1, g2⟩
          · refine Or.inl ⟨b1, ?_, ?_, ?_, g3, ?_, ?_⟩
            · rw [hunfold, hb1, e2]
            · rw [g1, e1]
            · rw [g2]
              unfold wrapInt
              push_cast
              omega
            · exact ⟨g4.1.trans k4.1, g4.2.1.trans k4.2.1, g4.2.2.1.trans k4.2.2.1,
                g4.2.2.2.trans k4.2.2.2⟩
            · intro h
              rw [← e1] at h ⊢
              exact g5 h
          · refine Or.inr ⟨?_, ?_, ?_⟩
            · rw [hunfold, herr]
            · rw [← e1]; exact g1
            · rw [← e1]; exact g2
      · refine ⟨0, Nat.zero_le _, ?_, Or.inl ⟨b, ?_, ?_, ?_, rfl, ⟨rfl, rfl, rfl, rfl⟩, ?_⟩⟩
        · intro t h1 h2; simp at h2; omega
        · rw [BaseArray.removeTrailingZerosLoop, if_pos hlt, hd]
          simp [hz]
        · simp
        · simp only [Nat.cast_zero, add_zero]
          exact (wrapInt_of_isInt _ hsn.1 hsn.2).symm
        · intro _
          simp only [Nat.cast_zero, add_zero]
          exact ⟨d, hd, hz⟩
    · refine ⟨0, Nat.zero_le _, ?_, Or.inr ⟨?_, ?_, ?_⟩⟩
      · intro t h1 h2; simp at h2; omega
      · rw [BaseArray.removeTrailingZerosLoop, if_pos hlt, hund]
      · simpa using hlt
      · simpa using hund

/-- The loop of `removeLeadingZeros` from any state: after `j` steps over zero digits,
`j` at most `end - startNumbers`, it returns at `startNumbers` or below a non-zero digit,
or it reads outside the storage. -/
theorem removeLeadingZerosLoop_spec (s : Bool) (m : Nat) :
    ∀ (b : BaseArray) (count : Nat), (b.end_ - b.startNumbers).toNat = m →
      ∃ j : Nat, j ≤ m
        ∧ (∀ t : Int, b.end_ - (j : Int) ≤ t → t < b.end_ → b.readStorage s t = .ok 0)
        ∧ ((∃ b1, BaseArray.removeLeadingZerosLoop s b count = .ok (count + j, b1)
              ∧ b1.end_ = b.end_ - (j : Int)
              ∧ b1.startPadding = b.startPadding ∧ b1.startNumbers = b.startNumbers
              ∧ b1.sameStorage b
              ∧ (b.startNumbers < b.end_ - (j : Int) →
                  ∃ d, b.readStorage s (b.end_ - (j : Int) - 1) = .ok d ∧ d ≠ 0))
          ∨ (BaseArray.removeLeadingZerosLoop s b count = .error .undefined
              ∧ b.startNumbers < b.end_ - (j : Int)
              ∧ b.readStorage s (b.end_ - (j : Int) - 1) = .error .undefined)) := by
  induction m with
  | zero =>
    intro b count hm
    have hge : ¬ b.end_ > b.startNumbers := by omega
    refine ⟨0, le_refl _, ?_, Or.inl ⟨b, ?_, ?_, rfl, rfl, ⟨rfl, rfl, rfl, rfl⟩, ?_⟩⟩
    · intro t h1 h2; simp at h1; omega
    · rw [BaseArray.removeLeadingZerosLoop, if_neg hge]; rfl
    · simp
    · intro h; simp at h; omega
  | succ m ih =>
    intro b count hm
    have hlt : b.end_ > b.startNumbers := by omega
    have he := b.end_int
    have hsn := b.startNumbers_int
    unfold isInt at he hsn
    have hw : wrapInt (b.end_ - 1) = b.end_ - 1 := wrapInt_of_isInt _ (by omega) (by omega)
    rcases readStorage_cases s b (b.end_ - 1) with ⟨d, hd⟩ | hund
    · have hdw : b.readStorage s (wrapInt (b.end_ - 1)) = .ok d := by rw [hw]; exact hd
      by_cases hz : d = 0
      · subst hz
        have hstep : ∃ b2 : BaseArray, b2.end_ = b.end_ - 1
            ∧ b2.startPadding = b.startPadding ∧ b2.startNumbers = b.startNumbers
            ∧ b2.sameStorage b
            ∧ BaseArray.removeLeadingZerosLoop s b count
                = BaseArray.removeLeadingZerosLoop s b2 (count + 1) := by
          refine ⟨{ b with end_ := wrapInt (b.end_ - 1), end_int := wrapInt_isInt _ },
            hw, rfl, rfl, ⟨rfl, rfl, rfl, rfl⟩, ?_⟩
          rw [BaseArray.removeLeadingZerosLoop, if_pos hlt, hdw]
          simp
        obtain ⟨b2, k1, k2, k3, k4, hunfold⟩ := hstep
        obtain ⟨j, hjm, hzero, hres⟩ := ih b2 (count + 1) (by rw [k1, k3]; omega)
        rw [k1] at hzero hres
        rw [k2, k3] at hres
        simp only [readStorage_congr s b2 b k4] at hzero hres
        have e1 : b.end_ - 1 - (j : Int) = b.end_ - ((j + 1 : Nat) : Int) := by
          push_cast; omega
        have e2 : count + 1 + j = count + (j + 1) := by omega
        refine ⟨j + 1, by omega, ?_, ?_⟩
        · intro t h1 h2
          by_cases ht : t = b.end_ - 1
          · rw [ht]; exact hd
          · exact hzero t (by push_cast at h1; omega) (by omega)
        · rcases hres with ⟨b1, hb1, g1, g2, g3, g4, g5⟩ | ⟨herr, g1, g2⟩
          · refine Or.inl ⟨b1, ?_, ?_, g2, g3, ?_, ?_⟩
            · rw [hunfold, hb1, e2]
            · rw [g1, e1]
            · exact ⟨g4.1.trans k4.1, g4.2.1.trans k4.2.1, g4.2.2.1.trans k4.2.2.1,
                g4.2.2.2.trans k4.2.2.2⟩
            · intro h
              rw [← e1] at h ⊢
              exact g5 h
          · refine Or.inr ⟨?_, ?_, ?_⟩
            · rw [hunfold, herr]
            · rw [← e1]; exact g1
            · rw [← e1]; exact g2
      · refine ⟨0, Nat.zero_le _, ?_, Or.inl ⟨b, ?_, ?_, rfl, rfl, ⟨rfl, rfl, rfl, rfl⟩, ?_⟩⟩
        · intro t h1 h2; simp at h1; omega
        · rw [BaseArray.removeLeadingZerosLoop, if_pos hlt, hdw]
          simp [hz]
        · simp
        · intro _
          simp only [Nat.cast_zero, sub_zero]
          exact ⟨d, hd, hz⟩
    · refine ⟨0, Nat.zero_le _, ?_, Or.inr ⟨?_, ?_, ?_⟩⟩
      · intro t h1 h2; simp at h1; omega
      · have hundw : b.readStorage s (wrapInt (b.end_ - 1)) = .error .undefined := by
          rw [hw]; exact hund
        rw [BaseArray.removeLeadingZerosLoop, if_pos hlt, hundw]
      · simpa using hlt
      · simpa using hund

/-- Inside the window invariant the loop of `removeTrailingZeros` reads inside the
storage, so it returns. -/
theorem removeTrailingZerosLoop_returns (s : Bool) (b : BaseArray) (count : Nat)
    (h0 : 0 ≤ b.startPadding) (h3 : b.end_ ≤ (b.m_digits_size : Int)) :
    ∃ (j : Nat) (b1 : BaseArray),
      BaseArray.removeTrailingZerosLoop s b count = .ok (count + j, b1)
        ∧ (j : Int) ≤ (b.end_ - b.startPadding).toNat
        ∧ (∀ t : Int, b.startPadding ≤ t → t < b.startPadding + (j : Int) →
            b.readStorage s t = .ok 0)
        ∧ b1.startPadding = b.startPadding + (j : Int)
        ∧ b1.startNumbers = wrapInt (b.startNumbers + (j : Int))
        ∧ b1.end_ = b.end_ ∧ b1.sameStorage b
        ∧ (b.startPadding + (j : Int) < b.end_ →
            ∃ d, b.readStorage s (b.startPadding + (j : Int)) = .ok d ∧ d ≠ 0) := by
  obtain ⟨j, hjm, hzero, hres⟩ := removeTrailingZerosLoop_spec s _ b count rfl
  rcases hres with ⟨b1, hb1, g1, g2, g3, g4, g5⟩ | ⟨_, g1, g2⟩
  · exact ⟨j, b1, hb1, by exact_mod_cast hjm, hzero, g1, g2, g3, g4, g5⟩
  · obtain ⟨d, hd⟩ := readStorage_defined s b (b.startPadding + (j : Int))
      (by omega) (by omega)
    rw [hd] at g2
    exact Except.noConfusion g2

theorem removeLeadingZerosLoop_returns (s : Bool) (b : BaseArray) (count : Nat)
    (h0 : 0 ≤ b.startNumbers) (h3 : b.end_ ≤ (b.m_digits_size : Int)) :
    ∃ (j : Nat) (b1 : BaseArray),
      BaseArray.removeLeadingZerosLoop s b count = .ok (count + j, b1)
        ∧ (j : Int) ≤ (b.end_ - b.startNumbers).toNat
        ∧ (∀ t : Int, b.end_ - (j : Int) ≤ t → t < b.end_ → b.readStorage s t = .ok 0)
        ∧ b1.end_ = b.end_ - (j : Int)
        ∧ b1.startPadding = b.startPadding ∧ b1.startNumbers = b.startNumbers
        ∧ b1.sameStorage b
        ∧ (b.startNumbers < b.end_ - (j : Int) →
            ∃ d, b.readStorage s (b.end_ - (j : Int) - 1) = .ok d ∧ d ≠ 0) := by
  obtain ⟨j, hjm, hzero, hres⟩ := removeLeadingZerosLoop_spec s _ b count rfl
  rcases hres with ⟨b1, hb1, g1, g2, g3, g4, g5⟩ | ⟨_, g1, g2⟩
  · exact ⟨j, b1, hb1, by exact_mod_cast hjm, hzero, g1, g2, g3, g4, g5⟩
  · obtain ⟨d, hd⟩ := readStorage_defined s b (b.end_ - (j : Int) - 1)
      (by omega) (by omega)
    rw [hd] at g2
    exact Except.noConfusion g2

/-- The three branches of `cutToSize` on a finalized array, by the members they leave. -/
theorem cutToSize_fields (b : BaseArray) (n : Nat) (hfin : b.finalized = true) :
    (toInt n > wrapInt (b.end_ - b.startPadding)
        ∧ b.cutToSize n = .error .invalid_argument)
      ∨ (¬ toInt n > wrapInt (b.end_ - b.startPadding)
        ∧ ∃ b1, b.cutToSize n = .ok b1 ∧ b1.sameStorage b
          ∧ (wrapInt (b.startPadding + toInt n) ≥ b.startNumbers →
              b1.end_ = wrapInt (b.startPadding + toInt n)
                ∧ b1.startNumbers = b.startNumbers ∧ b1.startPadding = b.startPadding)
          ∧ (wrapInt (b.startPadding + toInt n) < b.startNumbers →
              wrapInt (b.startPadding + toInt n) ≥ 0 →
              b1.end_ = wrapInt (b.startPadding + toInt n)
                ∧ b1.startNumbers = wrapInt (b.startPadding + toInt n)
                ∧ b1.startPadding = b.startPadding)
          ∧ (wrapInt (b.startPadding + toInt n) < b.startNumbers →
              wrapInt (b.startPadding + toInt n) < 0 →
              b1.end_ = 0 ∧ b1.startNumbers = 0
                ∧ b1.startPadding
                  = wrapInt (b.startPadding + wrapInt (-wrapInt (b.startPadding + toInt n))))) := by
  by_cases hthrow : toInt n > wrapInt (b.end_ - b.startPadding)
  · left
    refine ⟨hthrow, ?_⟩
    simp [BaseArray.cutToSize, BaseArray.isFinalized, hfin, hthrow]
  · right
    refine ⟨hthrow, ?_⟩
    unfold BaseArray.cutToSize BaseArray.isFinalized
    simp only [hfin, Bool.not_true, Bool.false_eq_true, if_false, hthrow]
    by_cases hA : wrapInt (b.startPadding + toInt n) ≥ b.startNumbers
    · rw [if_pos hA]
      exact ⟨_, rfl, ⟨rfl, rfl, rfl, hfin.symm⟩, fun _ => ⟨rfl, rfl, rfl⟩,
        fun h => absurd hA (by omega), fun h => absurd hA (by omega)⟩
    · rw [if_neg hA]
      by_cases hB : wrapInt (b.startPadding + toInt n) ≥ 0
      · rw [if_pos hB]
        exact ⟨_, rfl, ⟨rfl, rfl, rfl, hfin.symm⟩, fun h => absurd h hA,
          fun _ _ => ⟨rfl, rfl, rfl⟩, fun _ h => absurd hB (by omega)⟩
      · rw [if_neg hB]
        exact ⟨_, rfl, ⟨rfl, rfl, rfl, hfin.symm⟩, fun h => absurd h hA,
          fun _ h => absurd h hB, fun _ _ => ⟨rfl, rfl, rfl⟩⟩

/-- The value `operator[]` returns, by the members of the array. -/
theorem get_eq (s : Bool) (b : BaseArray) (index : Nat) :
    b.get s index
      = if wrapInt (b.startPadding + toInt index) < b.startNumbers then .ok 0
        else if wrapInt (b.startPadding + toInt index) ≥ b.end_ then .error .out_of_range
        else b.readStorage s (wrapInt (b.startPadding + toInt index)) := rfl

/-- What `cutToSize(n)` does on a finalized array with `startPadding <= startNumbers <=
end`, `0 <= startNumbers` and a size that fits in `int`, for `n` up to `INT_MAX`. -/
theorem cutToSize_spec (b : BaseArray) (n : Nat) (hfin : b.finalized = true)
    (h1 : b.startPadding ≤ b.startNumbers) (h2 : b.startNumbers ≤ b.end_)
    (h3 : 0 ≤ b.startNumbers) (hfit : b.sizeFitsInt) (hn : n < 2 ^ 31) :
    (b.size < n → b.cutToSize n = .error .invalid_argument)
      ∧ (n ≤ b.size → ∃ b1, b.cutToSize n = .ok b1 ∧ b1.size = n
          ∧ b1.startPadding ≤ b1.startNumbers ∧ b1.startNumbers ≤ b1.end_
          ∧ 0 ≤ b1.startNumbers ∧ b1.end_ ≤ b.end_
          ∧ b1.m_digits_size = b.m_digits_size ∧ b1.finalized = true
          ∧ ∀ (s : Bool) (i : Nat), i < n → b1.get s i = b.get s i) := by
  have hsz := size_cast b (by omega)
  have hcast := toInt_of_lt n hn
  have hfit2 : b.end_ - b.startPadding < 2 ^ 31 := hfit
  have he := b.end_int
  have hsp := b.startPadding_int
  unfold isInt at he hsp
  have hw : wrapInt (b.end_ - b.startPadding) = b.end_ - b.startPadding :=
    wrapInt_of_isInt _ (by omega) hfit2
  rcases cutToSize_fields b n hfin with ⟨hthrow, herr⟩ | ⟨hno, b1, hb1, hst, fA, fB, fC⟩
  · rw [hw, hcast] at hthrow
    exact ⟨fun _ => herr, fun hle => absurd hthrow (by omega)⟩
  · rw [hw, hcast] at hno
    refine ⟨fun hlt => absurd hlt (by omega), fun hle => ?_⟩
    rw [hcast] at fA fB fC
    have hwe : wrapInt (b.startPadding + (n : Int)) = b.startPadding + (n : Int) :=
      wrapInt_of_isInt _ (by omega) (by omega)
    rw [hwe] at fA fB fC
    have hgeti : ∀ i : Nat, i < n →
        wrapInt (b.startPadding + toInt i) = b.startPadding + (i : Int) :=
      fun i hi => get_temp b i (by omega)
    by_cases hA : b.startPadding + (n : Int) ≥ b.startNumbers
    · obtain ⟨g1, g2, g3⟩ := fA hA
      have hsz1 := size_cast b1 (by omega)
      refine ⟨b1, hb1, by omega, by omega, by omega, by omega, by omega, hst.1,
        hst.2.2.2.trans hfin, ?_⟩
      intro s i hi
      have ht1 : wrapInt (b1.startPadding + toInt i) = b.startPadding + (i : Int) := by
        rw [g3]; exact hgeti i hi
      rw [get_eq, get_eq, ht1, hgeti i hi, g1, g2, readStorage_congr s b1 b hst]
      by_cases hlow : b.startPadding + (i : Int) < b.startNumbers
      · rw [if_pos hlow, if_pos hlow]
      · rw [if_neg hlow, if_neg hlow, if_neg (by omega), if_neg (by omega)]
    · by_cases hB : b.startPadding + (n : Int) ≥ 0
      · obtain ⟨g1, g2, g3⟩ := fB (by omega) hB
        have hsz1 := size_cast b1 (by omega)
        refine ⟨b1, hb1, by omega, by omega, by omega, by omega, by omega, hst.1,
          hst.2.2.2.trans hfin, ?_⟩
        intro s i hi
        have ht1 : wrapInt (b1.startPadding + toInt i) = b.startPadding + (i : Int) := by
          rw [g3]; exact hgeti i hi
        rw [get_eq, get_eq, ht1, hgeti i hi, g2]
        rw [if_pos (by omega), if_pos (by omega)]
      · obtain ⟨g1, g2, g3⟩ := fC (by omega) (by omega)
        have hsp1 : b1.startPadding = -(n : Int) := by
          rw [g3]
          unfold wrapInt
          omega
        have hsz1 := size_cast b1 (by omega)
        refine ⟨b1, hb1, by omega, by omega, by omega, by omega, by omega, hst.1,
          hst.2.2.2.trans hfin, ?_⟩
        intro s i hi
        have ht1 : wrapInt (b1.startPadding + toInt i) = -(n : Int) + (i : Int) := by
          rw [← hsp1]
          exact get_temp b1 i (by omega)
        rw [get_eq, get_eq, ht1, hgeti i hi, g2]
        rw [if_pos (by omega), if_pos (by omega)]

theorem toInt_cases (n : Nat) (h : n < 2 ^ 32) :
    (n < 2 ^ 31 ∧ toInt n = (n : Int)) ∨ (2 ^ 31 ≤ n ∧ toInt n = (n : Int) - 2 ^ 32) := by
  unfold toInt
  have h1 : n % 2 ^ 32 = n := Nat.mod_eq_of_lt h
  rw [h1]
  by_cases hlt : n < 2 ^ 31
  · left; exact ⟨hlt, by rw [if_pos hlt]⟩
  · right; exact ⟨by omega, by rw [if_neg hlt]⟩

theorem size_lt (b : BaseArray) (h0 : b.startPadding ≤ b.end_) : b.size < 2 ^ 32 := by
  have h := size_cast b h0
  have h1 := b.end_int
  have h2 := b.startPadding_int
  unfold isInt at h1 h2
  omega

theorem cutToSize_windowInvariant (b : BaseArray) (n : Nat) (hfin : b.finalized = true)
    (hinv : b.windowInvariant) (hn : n ≤ b.size) :
    (∃ b1, b.cutToSize n = .ok b1 ∧ b1.windowInvariant)
      ∨ (¬ b.sizeFitsInt ∧ b.cutToSize n = .error .invalid_argument) := by
  obtain ⟨h0, h1, h2, h3⟩ := hinv
  have hsz := size_cast b (by omega)
  have hlt := size_lt b (by omega)
  have he := b.end_int
  have hsp := b.startPadding_int
  unfold isInt at he hsp
  have hwe : wrapInt (b.startPadding + toInt n) = b.startPadding + (n : Int) := by
    rw [wrapInt_add_toInt]
    exact wrapInt_of_isInt _ (by omega) (by omega)
  rcases cutToSize_fields b n hfin with ⟨hthrow, herr⟩ | ⟨hno, b1, hb1, hst, fA, fB, fC⟩
  · right
    refine ⟨?_, herr⟩
    intro hfit
    have hfit2 : b.end_ - b.startPadding < 2 ^ 31 := hfit
    rw [wrapInt_of_isInt _ (by omega) hfit2, toInt_of_lt n (by omega)] at hthrow
    omega
  · left
    refine ⟨b1, hb1, ?_⟩
    rw [hwe] at fA fB fC
    unfold BaseArray.windowInvariant
    rw [hst.1]
    by_cases hA : b.startPadding + (n : Int) ≥ b.startNumbers
    · obtain ⟨g1, g2, g3⟩ := fA hA
      omega
    · by_cases hB : b.startPadding + (n : Int) ≥ 0
      · obtain ⟨g1, g2, g3⟩ := fB (by omega) hB
        omega
      · obtain ⟨g1, g2, g3⟩ := fC (by omega) (by omega)
        have hsp1 : b1.startPadding ≤ 0 := by
          rw [g3]
          unfold wrapInt
          omega
        omega

theorem removeTrailingZeros_unfold (s : Bool) (b : BaseArray) (hfin : b.finalized = true)
    (h1 : b.startPadding ≤ b.startNumbers) :
    ∃ b0 : BaseArray, b0.startPadding = b.startNumbers ∧ b0.startNumbers = b.startNumbers
      ∧ b0.end_ = b.end_ ∧ b0.sameStorage b
      ∧ b.removeTrailingZeros s
        = match BaseArray.removeTrailingZerosLoop s b0
              (toUnsigned (wrapInt (b.startNumbers - b.startPadding))) with
          | .error e => .error e
          | .ok (count, b1) => .ok (count % 2 ^ 32, b1) := by
  by_cases hlt : b.startPadding < b.startNumbers
  · refine ⟨{ b with startPadding := b.startNumbers, startPadding_int := b.startNumbers_int },
      rfl, rfl, rfl, ⟨rfl, rfl, rfl, rfl⟩, ?_⟩
    unfold BaseArray.removeTrailingZeros BaseArray.isFinalized
    simp only [hfin, Bool.not_true, Bool.false_eq_true, if_false, Nat.zero_add, hlt, if_true]
  · have heq : b.startPadding = b.startNumbers := by omega
    refine ⟨b, heq, rfl, rfl, ⟨rfl, rfl, rfl, rfl⟩, ?_⟩
    unfold BaseArray.removeTrailingZeros BaseArray.isFinalized
    simp only [hfin, Bool.not_true, Bool.false_eq_true, if_false, hlt]
    have hz : toUnsigned (wrapInt (b.startNumbers - b.startPadding)) = 0 := by
      rw [heq, sub_self]
      decide
    rw [hz]

/-- What `removeTrailingZeros` does on a finalized array satisfying the window
invariant. -/
theorem removeTrailingZeros_spec (s : Bool) (b : BaseArray) (hfin : b.finalized = true)
    (hinv : b.windowInvariant) :
    ∃ (k : Nat) (b1 : BaseArray), b.removeTrailingZeros s = .ok (k, b1)
      ∧ (∀ i : Nat, i < k → b.get s i = .ok 0)
      ∧ b1.size + k = b.size
      ∧ (∀ i : Nat, i < b1.size → b1.get s i = b.get s (i + k))
      ∧ (b1.size ≠ 0 → ∃ d, b1.get s 0 = .ok d ∧ d ≠ 0)
      ∧ b1.windowInvariant ∧ b1.finalized = true := by
  obtain ⟨h0, h1, h2, h3⟩ := hinv
  have he := b.end_int
  have hsp := b.startPadding_int
  have hsn := b.startNumbers_int
  unfold isInt at he hsp hsn
  have hsz := size_cast b (by omega)
  have hc0 : ((toUnsigned (wrapInt (b.startNumbers - b.startPadding)) : Nat) : Int)
      = b.startNumbers - b.startPadding := toUnsigned_wrapInt _ (by omega) (by omega)
  obtain ⟨b0, u1, u2, u3, u4, hunf⟩ := removeTrailingZeros_unfold s b hfin h1
  obtain ⟨j, b1, hj, hjm, hzero, g1, g2, g3, g4, g5⟩ := removeTrailingZerosLoop_returns s b0
    (toUnsigned (wrapInt (b.startNumbers - b.startPadding)))
    (by rw [u1]; exact h0) (by rw [u3, u4.1]; exact h3)
  rw [u1, u3] at hjm
  rw [u1] at hzero g1 g5
  rw [u2] at g2
  rw [u3] at g3 g5
  simp only [readStorage_congr s b0 b u4] at hzero g5
  have hjle : b.startNumbers + (j : Int) ≤ b.end_ := by omega
  have g2' : b1.startNumbers = b.startNumbers + (j : Int) := by
    rw [g2]; exact wrapInt_of_isInt _ (by omega) (by omega)
  have hst : b1.sameStorage b :=
    ⟨g4.1.trans u4.1, g4.2.1.trans u4.2.1, g4.2.2.1.trans u4.2.2.1, g4.2.2.2.trans u4.2.2.2⟩
  have hk : (toUnsigned (wrapInt (b.startNumbers - b.startPadding)) + j) % 2 ^ 32
      = toUnsigned (wrapInt (b.startNumbers - b.startPadding)) + j :=
    Nat.mod_eq_of_lt (by omega)
  have hsz1 := size_cast b1 (by omega)
  refine ⟨toUnsigned (wrapInt (b.startNumbers - b.startPadding)) + j, b1, ?_, ?_, ?_, ?_, ?_,
    ?_, hst.2.2.2.trans hfin⟩
  · rw [hunf, hj]
    simp only [hk]
  · intro i hi
    rw [get_eq, get_temp b i (by omega)]
    by_cases hlow : b.startPadding + (i : Int) < b.startNumbers
    · rw [if_pos hlow]
    · rw [if_neg hlow, if_neg (by omega)]
      exact hzero _ (by omega) (by omega)
  · omega
  · intro i hi
    have e : b.startPadding
        + ((i + (toUnsigned (wrapInt (b.startNumbers - b.startPadding)) + j) : Nat) : Int)
          = b.startNumbers + (j : Int) + (i : Int) := by
      push_cast; omega
    have hl : b1.get s i = b.readStorage s (b.startNumbers + (j : Int) + (i : Int)) := by
      rw [get_eq, get_temp b1 i (by omega), readStorage_congr s b1 b hst, g1, g2', g3]
      rw [if_neg (by omega), if_neg (by omega)]
    have hr : b.get s (i + (toUnsigned (wrapInt (b.startNumbers - b.startPadding)) + j))
        = b.readStorage s (b.startNumbers + (j : Int) + (i : Int)) := by
      rw [get_eq, get_temp b _ (by rw [e]; omega), e]
      rw [if_neg (by omega), if_neg (by omega)]
    rw [hl, hr]
  · intro hne
    obtain ⟨d, hd, hdne⟩ := g5 (by omega)
    refine ⟨d, ?_, hdne⟩
    rw [get_eq, get_temp b1 0 (by omega), readStorage_congr s b1 b hst]
    simp only [Nat.cast_zero, add_zero]
    rw [if_neg (by omega), if_neg (by omega), g1]
    exact hd
  · unfold BaseArray.windowInvariant
    rw [hst.1]
    omega

theorem removeLeadingZeros_fields (s : Bool) (b b2 : BaseArray) (c : Nat)
    (hfin : b.finalized = true)
    (hloop : BaseArray.removeLeadingZerosLoop s b 0 = .ok (c, b2)) :
    (b2.end_ = b2.startNumbers →
        ∃ b1, b.removeLeadingZeros s
            = .ok ((c + toUnsigned (wrapInt (b2.startNumbers - b2.startPadding))) % 2 ^ 32, b1)
          ∧ b1.end_ = 0 ∧ b1.startNumbers = 0 ∧ b1.startPadding = 0 ∧ b1.sameStorage b2)
      ∧ (b2.end_ ≠ b2.startNumbers → b.removeLeadingZeros s = .ok (c % 2 ^ 32, b2)) := by
  constructor
  · intro h
    refine ⟨{ b2 with end_ := 0, startNumbers := 0, startPadding := 0, end_int := by decide,
                      startNumbers_int := by decide, startPadding_int := by decide },
      ?_, rfl, rfl, rfl, ⟨rfl, rfl, rfl, rfl⟩⟩
    unfold BaseArray.removeLeadingZeros BaseArray.isFinalized
    simp only [hfin, Bool.not_true, Bool.false_eq_true, if_false, hloop]
    rw [if_pos h]
  · intro h
    unfold BaseArray.removeLeadingZeros BaseArray.isFinalized
    simp only [hfin, Bool.not_true, Bool.false_eq_true, if_false, hloop]
    rw [if_neg h]

/-- What `removeLeadingZeros` does on a finalized array satisfying the window
invariant. -/
theorem removeLeadingZeros_spec (s : Bool) (b : BaseArray) (hfin : b.finalized = true)
    (hinv : b.windowInvariant) :
    ∃ (k : Nat) (b1 : BaseArray), b.removeLeadingZeros s = .ok (k, b1)
      ∧ k ≤ b.size ∧ b1.size = b.size - k
      ∧ (∀ i : Nat, i < b1.size → b1.get s i = b.get s i)
      ∧ (b1.size ≠ 0 → ∃ d, b1.get s (b1.size - 1) = .ok d ∧ d ≠ 0)
      ∧ ((∀ i : Nat, i < b.size → b.get s i = .ok 0) →
          b1.startPadding = 0 ∧ b1.startNumbers = 0 ∧ b1.end_ = 0 ∧ k = b.size)
      ∧ b1.windowInvariant ∧ b1.finalized = true := by
  obtain ⟨h0, h1, h2, h3⟩ := hinv
  have he := b.end_int
  have hsp := b.startPadding_int
  have hsn := b.startNumbers_int
  unfold isInt at he hsp hsn
  have hsz := size_cast b (by omega)
  obtain ⟨j, b2, hj, hjm, hzero, g1, g2, g3, g4, g5⟩ :=
    removeLeadingZerosLoop_returns s b 0 h0 h3
  rw [Nat.zero_add] at hj
  have hjle : b.startNumbers ≤ b.end_ - (j : Int) := by omega
  by_cases hend : b2.end_ = b2.startNumbers
  · obtain ⟨b1, hres, e1, e2, e3, e4⟩ := (removeLeadingZeros_fields s b b2 j hfin hj).1 hend
    have hc0 : ((toUnsigned (wrapInt (b2.startNumbers - b2.startPadding)) : Nat) : Int)
        = b.startNumbers - b.startPadding := by
      rw [g2, g3]
      exact toUnsigned_wrapInt _ (by omega) (by omega)
    have hk : (j + toUnsigned (wrapInt (b2.startNumbers - b2.startPadding))) % 2 ^ 32
        = j + toUnsigned (wrapInt (b2.startNumbers - b2.startPadding)) :=
      Nat.mod_eq_of_lt (by omega)
    have hsz1 := size_cast b1 (by omega)
    have hst : b1.sameStorage b :=
      ⟨e4.1.trans g4.1, e4.2.1.trans g4.2.1, e4.2.2.1.trans g4.2.2.1, e4.2.2.2.trans g4.2.2.2⟩
    refine ⟨j + toUnsigned (wrapInt (b2.startNumbers - b2.startPadding)), b1, ?_, ?_, ?_, ?_,
      ?_, ?_, ?_, hst.2.2.2.trans hfin⟩
    · rw [hres, hk]
    · omega
    · omega
    · intro i hi
      omega
    · intro hne
      omega
    · intro _
      exact ⟨e3, e2, e1, by omega⟩
    · unfold BaseArray.windowInvariant
      rw [hst.1]
      omega
  · have hres := (removeLeadingZeros_fields s b b2 j hfin hj).2 hend
    have hk : j % 2 ^ 32 = j := Nat.mod_eq_of_lt (by omega)
    have hsz1 := size_cast b2 (by omega)
    obtain ⟨d, hd, hdne⟩ := g5 (by omega)
    have hhigh : ∀ idx : Nat, (idx : Int) = b.end_ - (j : Int) - 1 - b.startPadding →
        b.get s idx = .ok d := by
      intro idx hidx
      rw [get_eq, get_temp b idx (by omega)]
      have e : b.startPadding + (idx : Int) = b.end_ - (j : Int) - 1 := by omega
      rw [e, if_neg (by omega), if_neg (by omega)]
      exact hd
    refine ⟨j, b2, ?_, ?_, ?_, ?_, ?_, ?_, ?_, g4.2.2.2.trans hfin⟩
    · rw [hres, hk]
    · omega
    · omega
    · intro i hi
      rw [get_eq, get_eq, get_temp b2 i (by omega), get_temp b i (by omega),
        readStorage_congr s b2 b g4, g1, g2, g3]
      by_cases hlow : b.startPadding + (i : Int) < b.startNumbers
      · rw [if_pos hlow, if_pos hlow]
      · rw [if_neg hlow, if_neg hlow, if_neg (by omega), if_neg (by omega)]
    · intro _
      refine ⟨d, ?_, hdne⟩
      rw [get_eq, get_temp b2 _ (by omega), readStorage_congr s b2 b g4, g1, g2, g3]
      have e : b.startPadding + ((b2.size - 1 : Nat) : Int) = b.end_ - (j : Int) - 1 := by
        omega
      rw [e, if_neg (by omega), if_neg (by omega)]
      exact hd
    · intro hall
      exfalso
      have hi : (b.end_ - (j : Int) - 1 - b.startPadding).toNat < b.size := by omega
      have hget := hall _ hi
      rw [hhigh _ (by omega)] at hget
      exact hdne (Except.ok.inj hget)
    · unfold BaseArray.windowInvariant
      rw [g4.1]
      omega

theorem shiftLeft_fields (b : BaseArray) (i : Nat) (hfin : b.finalized = true) :
    ∃ b1, b.shiftLeft i = .ok b1 ∧ b1.startPadding = wrapInt (b.startPadding - (i : Int))
      ∧ b1.startNumbers = b.startNumbers ∧ b1.end_ = b.end_ ∧ b1.sameStorage b := by
  refine ⟨{ b with startPadding := wrapInt (b.startPadding - toInt i),
                   startPadding_int := wrapInt_isInt _ }, ?_, wrapInt_sub_toInt _ _, rfl, rfl,
    ⟨rfl, rfl, rfl, rfl⟩⟩
  simp [BaseArray.shiftLeft, BaseArray.isFinalized, hfin]

theorem shiftLeft_windowInvariant (b : BaseArray) (i : Nat) (hfin : b.finalized = true)
    (hinv : b.windowInvariant) (hi : -2 ^ 31 ≤ b.startPadding - (i : Int)) :
    ∃ b1, b.shiftLeft i = .ok b1 ∧ b1.windowInvariant := by
  obtain ⟨h0, h1, h2, h3⟩ := hinv
  have hsp := b.startPadding_int
  unfold isInt at hsp
  obtain ⟨b1, hb1, g1, g2, g3, g4⟩ := shiftLeft_fields b i hfin
  rw [wrapInt_of_isInt _ hi (by omega)] at g1
  refine ⟨b1, hb1, ?_⟩
  unfold BaseArray.windowInvariant
  rw [g4.1]
  omega

theorem shiftRight_fields (b : BaseArray) (i : Nat) (hfin : b.finalized = true) :
    ∃ b1, b.shiftRight i = .ok b1 ∧ b1.end_ = b.end_ ∧ b1.sameStorage b
      ∧ (wrapInt (b.startPadding + (i : Int)) ≤ b.startNumbers →
          wrapInt (b.startPadding + (i : Int)) ≤ b.end_ →
          b1.startPadding = wrapInt (b.startPadding + (i : Int))
            ∧ b1.startNumbers = b.startNumbers)
      ∧ (wrapInt (b.startPadding + (i : Int)) > b.startNumbers →
          wrapInt (b.startPadding + (i : Int)) ≤ b.end_ →
          b1.startPadding = wrapInt (b.startPadding + (i : Int))
            ∧ b1.startNumbers = wrapInt (b.startPadding + (i : Int)))
      ∧ (wrapInt (b.startPadding + (i : Int)) > b.end_ →
          b1.startPadding = b.end_ ∧ b1.startNumbers = b.end_) := by
  have hw := wrapInt_add_toInt b.startPadding i
  unfold BaseArray.shiftRight BaseArray.isFinalized
  simp only [hfin, Bool.not_true, Bool.false_eq_true, if_false]
  by_cases hA : wrapInt (b.startPadding + toInt i) > b.startNumbers
  · by_cases hB : wrapInt (b.startPadding + toInt i) > b.end_
    · simp only [hA, hB, if_true]
      rw [hw] at hA hB
      exact ⟨_, rfl, rfl, ⟨rfl, rfl, rfl, hfin.symm⟩, fun h => absurd hA (by omega),
        fun _ h => absurd hB (by omega), fun _ => ⟨rfl, rfl⟩⟩
    · simp only [hA, hB, if_true, if_false]
      refine ⟨_, rfl, rfl, ⟨rfl, rfl, rfl, hfin.symm⟩, ?_, ?_, ?_⟩
      · intro h; rw [← hw] at h; exact absurd hA (by omega)
      · intro _ _; exact ⟨hw, hw⟩
      · intro h; rw [← hw] at h; exact absurd h hB
  · by_cases hB : wrapInt (b.startPadding + toInt i) > b.end_
    · simp only [hA, hB, if_true, if_false]
      refine ⟨_, rfl, rfl, ⟨rfl, rfl, rfl, hfin.symm⟩, ?_, ?_, ?_⟩
      · intro _ h; rw [← hw] at h; exact absurd hB (by omega)
      · intro h; rw [← hw] at h; exact absurd h hA
      · intro _; exact ⟨rfl, rfl⟩
    · simp only [hA, hB, if_false]
      refine ⟨_, rfl, rfl, ⟨rfl, rfl, rfl, hfin.symm⟩, ?_, ?_, ?_⟩
      · intro _ _; exact ⟨hw, rfl⟩
      · intro h; rw [← hw] at h; exact absurd h hA
      · intro h; rw [← hw] at h; exact absurd h hB

theorem shiftRight_windowInvariant (b : BaseArray) (i : Nat) (hfin : b.finalized = true)
    (hinv : b.windowInvariant) :
    ∃ b1, b.shiftRight i = .ok b1 ∧ b1.windowInvariant := by
  obtain ⟨h0, h1, h2, h3⟩ := hinv
  obtain ⟨b1, hb1, ge, gst, fA, fB, fC⟩ := shiftRight_fields b i hfin
  refine ⟨b1, hb1, ?_⟩
  unfold BaseArray.windowInvariant
  rw [gst.1]
  by_cases hC : wrapInt (b.startPadding + (i : Int)) > b.end_
  · obtain ⟨k1, k2⟩ := fC hC
    omega
  · by_cases hA : wrapInt (b.startPadding + (i : Int)) > b.startNumbers
    · obtain ⟨k1, k2⟩ := fB hA (by omega)
      omega
    · obtain ⟨k1, k2⟩ := fA (by omega) (by omega)
      omega

theorem new_windowInvariant (s : Bool) (size : Nat) (memory : Nat → Nat) (digit : Nat)
    (hsize : size < 2 ^ 31) (hcfg : s = true ∨ size ≤ 1) :
    ∃ b, BaseArray.new s size memory digit = .ok b ∧ b.windowInvariant
      ∧ b.finalize.windowInvariant := by
  have hno : ¬ (s = false ∧ size > 1) := by
    rcases hcfg with h | h
    · simp [h]
    · omega
  unfold BaseArray.new
  rw [if_neg hno]
  refine ⟨_, rfl, ?_, ?_⟩ <;>
    simp [BaseArray.windowInvariant, BaseArray.finalize, toInt_of_lt size hsize]

theorem not_finalized_throws (s : Bool) (b : BaseArray) (hfin : b.finalized = false)
    (n : Nat) :
    b.cutToSize n = .error .logic_error
      ∧ b.removeTrailingZeros s = .error .logic_error
      ∧ b.removeLeadingZeros s = .error .logic_error
      ∧ b.shiftLeft n = .error .logic_error
      ∧ b.shiftRight n = .error .logic_error := by
  simp [BaseArray.cutToSize, BaseArray.removeTrailingZeros, BaseArray.removeLeadingZeros,
    BaseArray.shiftLeft, BaseArray.shiftRight, BaseArray.isFinalized, hfin]

theorem wrapInt_sub_add (a : Int) (i : Nat) (h : isInt a) :
    wrapInt (wrapInt (a - (i : Int)) + (i : Int)) = a := by
  unfold isInt at h
  unfold wrapInt
  omega

theorem shiftRight_after_shiftLeft (b b1 : BaseArray) (i : Nat) (hfin : b.finalized = true)
    (h1 : b.startPadding ≤ b.startNumbers) (h2 : b.startNumbers ≤ b.end_)
    (g1 : b1.startPadding = wrapInt (b.startPadding - (i : Int)))
    (g2 : b1.startNumbers = b.startNumbers) (g3 : b1.end_ = b.end_)
    (g4 : b1.sameStorage b) : b1.shiftRight i = .ok b := by
  obtain ⟨b2, hb2, ke, kst, fA, _, _⟩ := shiftRight_fields b1 i (g4.2.2.2.trans hfin)
  have hw : wrapInt (b1.startPadding + (i : Int)) = b.startPadding := by
    rw [g1]
    exact wrapInt_sub_add _ _ b.startPadding_int
  rw [hw, g2, g3] at fA
  obtain ⟨k1, k2⟩ := fA h1 (by omega)
  rw [hb2]
  exact congrArg Except.ok (BaseArray.eq_of_fields b2 b
    ⟨kst.1.trans g4.1, kst.2.1.trans g4.2.1, kst.2.2.1.trans g4.2.2.1,
      kst.2.2.2.trans g4.2.2.2⟩ k1 k2 (ke.trans g3))

/-! ### C18 : the window invariant -/

/-- C18, as stated, fails. On the finalized array `sampleArray` (`startPadding = -3`,
`startNumbers = 0`, `end = 5`), which satisfies the window invariant,
`shiftLeft(2147483647)` computes `-3 - 2147483647` in `int`, which wraps to
`2147483646 > startNumbers`; on the finalized empty array `shiftLeft(4294967295)` casts
its argument to `-1` and leaves `startPadding = 1 > startNumbers = 0`; and
`BaseArray(2147483648)` is constructed with `end = -2147483648 < startNumbers = 0`. -/
theorem windowInvariant_counterexample :
    sampleArray.finalized = true ∧ sampleArray.windowInvariant
      ∧ (∃ b1, sampleArray.shiftLeft 2147483647 = .ok b1
          ∧ b1.startPadding = 2147483646 ∧ b1.startNumbers = 0 ∧ ¬ b1.windowInvariant)
      ∧ emptyArray.finalized = true ∧ emptyArray.windowInvariant
      ∧ (∃ b1, emptyArray.shiftLeft 4294967295 = .ok b1
          ∧ b1.startPadding = 1 ∧ b1.startNumbers = 0 ∧ ¬ b1.windowInvariant)
      ∧ (∃ b1, BaseArray.new true 2147483648 (fun _ => 0) 0 = .ok b1
          ∧ b1.end_ = -2147483648 ∧ b1.startNumbers = 0 ∧ ¬ b1.windowInvariant) := by
  refine ⟨rfl, by decide, ⟨_, rfl, by decide, by decide, by decide⟩, rfl, by decide,
    ⟨_, rfl, by decide, by decide, by decide⟩, ⟨_, rfl, by decide, by decide, by decide⟩⟩

/-- C18, amended. `BaseArray` keeps the window invariant `0 <= startNumbers`,
`startPadding <= startNumbers <= end`, `end <= m_digits_size`: it holds after
construction with a size up to `INT_MAX` (a size above 1 needs `SPECIALIZE_SIZE_ONE`,
without which the constructor throws); on a finalized array satisfying it,
`removeTrailingZeros` and `removeLeadingZeros` return with the invariant holding,
`shiftRight` does so for every argument value, `shiftLeft(i)` for every `i` with
`startPadding - i >= INT_MIN`, and `cutToSize(n)` with `n <= size()` either returns with
the invariant holding or, only when `end - startPadding` does not fit in `int`, throws
`invalid_argument`; on an array that is not finalized each of them throws `logic_error`
before changing a field. -/
theorem windowInvariant_preserved (s : Bool) :
    (∀ (size : Nat) (memory : Nat → Nat) (digit : Nat), size < 2 ^ 31 →
        (s = true ∨ size ≤ 1) →
        ∃ b, BaseArray.new s size memory digit = .ok b ∧ b.windowInvariant
          ∧ b.finalize.windowInvariant)
      ∧ (∀ b : BaseArray, b.finalized = true → b.windowInvariant →
          (∀ n : Nat, n ≤ b.size →
              (∃ b1, b.cutToSize n = .ok b1 ∧ b1.windowInvariant)
                ∨ (¬ b.sizeFitsInt ∧ b.cutToSize n = .error .invalid_argument))
            ∧ (∃ (k : Nat) (b1 : BaseArray), b.removeTrailingZeros s = .ok (k, b1)
                ∧ b1.windowInvariant)
            ∧ (∃ (k : Nat) (b1 : BaseArray), b.removeLeadingZeros s = .ok (k, b1)
                ∧ b1.windowInvariant)
            ∧ (∀ i : Nat, -2 ^ 31 ≤ b.startPadding - (i : Int) →
                ∃ b1, b.shiftLeft i = .ok b1 ∧ b1.windowInvariant)
            ∧ (∀ i : Nat, ∃ b1, b.shiftRight i = .ok b1 ∧ b1.windowInvariant))
      ∧ (∀ (b : BaseArray) (n : Nat), b.finalized = false →
          b.cutToSize n = .error .logic_error
            ∧ b.removeTrailingZeros s = .error .logic_error
            ∧ b.removeLeadingZeros s = .error .logic_error
            ∧ b.shiftLeft n = .error .logic_error
            ∧ b.shiftRight n = .error .logic_error) := by
  refine ⟨?_, ?_, ?_⟩
  · intro size memory digit hsize hcfg
    exact new_windowInvariant s size memory digit hsize hcfg
  · intro b hfin hinv
    refine ⟨fun n hn => cutToSize_windowInvariant b n hfin hinv hn, ?_, ?_,
      fun i hi => shiftLeft_windowInvariant b i hfin hinv hi,
      fun i => shiftRight_windowInvariant b i hfin hinv⟩
    · obtain ⟨k, b1, hres, _, _, _, _, hinv1, _⟩ := removeTrailingZeros_spec s b hfin hinv
      exact ⟨k, b1, hres, hinv1⟩
    · obtain ⟨k, b1, hres, _, _, _, _, _, hinv1, _⟩ := removeLeadingZeros_spec s b hfin hinv
      exact ⟨k, b1, hres, hinv1⟩
  · intro b n hfin
    exact not_finalized_throws s b hfin n

theorem windowInvariant_preserved_witness :
    ((∃ b1, sampleArray.cutToSize 2 = .ok b1 ∧ b1.windowInvariant)
        ∨ (¬ sampleArray.sizeFitsInt ∧ sampleArray.cutToSize 2 = .error .invalid_argument))
      ∧ (∃ b1, sampleArray.shiftLeft 2147483645 = .ok b1 ∧ b1.windowInvariant)
      ∧ (∃ b1, sampleArray.shiftRight 4294967295 = .ok b1 ∧ b1.windowInvariant) :=
  ⟨((windowInvariant_preserved true).2.1 sampleArray rfl (by decide)).1 2 (by decide),
    ((windowInvariant_preserved true).2.1 sampleArray rfl (by decide)).2.2.2.1 2147483645
      (by decide),
    ((windowInvariant_preserved true).2.1 sampleArray rfl (by decide)).2.2.2.2 4294967295⟩

/-! ### C19 : `cutToSize` -/

/-- C19, as stated, fails for `n` above `INT_MAX`: on the finalized empty array
(`size() = 0`) `cutToSize(4294967295)` casts `n` to `-1`, does not raise, and returns
with `startPadding = 1`, `startNumbers = end = 0`. -/
theorem cutToSize_counterexample :
    emptyArray.finalized = true
      ∧ emptyArray.startPadding ≤ emptyArray.startNumbers
      ∧ emptyArray.startNumbers ≤ emptyArray.end_ ∧ 0 ≤ emptyArray.startNumbers
      ∧ emptyArray.size = 0 ∧ emptyArray.size < 4294967295
      ∧ emptyArray.cutToSize 4294967295 ≠ .error .invalid_argument
      ∧ (emptyArray.cutToSize 4294967295).map
          (fun b => (b.startPadding, b.startNumbers, b.end_)) = .ok (1, 0, 0) := by
  refine ⟨rfl, by decide, by decide, by decide, by decide, by decide, ?_, by decide⟩
  intro h
  have h2 := congrArg (Except.map fun b => (b.startPadding, b.startNumbers, b.end_)) h
  revert h2
  decide

/-- C19, amended. On a finalized `BaseArray` with `startPadding <= startNumbers <= end`
and `0 <= startNumbers` whose size fits in `int`, and for `n` up to `INT_MAX`,
`cutToSize(n)` raises `invalid_argument` exactly when `n > size()`; otherwise afterwards
`size() == n` and for every index `i < n` the digit read at `i` is the same as before the
call, in all three branches. -/
theorem cutToSize_correct (b : BaseArray) (n : Nat) (hfin : b.finalized = true)
    (h1 : b.startPadding ≤ b.startNumbers) (h2 : b.startNumbers ≤ b.end_)
    (h3 : 0 ≤ b.startNumbers) (hfit : b.sizeFitsInt) (hn : n < 2 ^ 31) :
    (b.cutToSize n = .error .invalid_argument ↔ b.size < n)
      ∧ (n ≤ b.size → ∃ b1, b.cutToSize n = .ok b1 ∧ b1.size = n
          ∧ ∀ (s : Bool) (i : Nat), i < n → b1.get s i = b.get s i) := by
  obtain ⟨hthrow, hok⟩ := cutToSize_spec b n hfin h1 h2 h3 hfit hn
  refine ⟨⟨?_, hthrow⟩, ?_⟩
  · intro herr
    by_contra hcon
    obtain ⟨b1, hb1, _⟩ := hok (by omega)
    rw [hb1] at herr
    exact Except.noConfusion herr
  · intro hle
    obtain ⟨b1, hb1, hsize, _, _, _, _, _, _, hget⟩ := hok hle
    exact ⟨b1, hb1, hsize, hget⟩

theorem cutToSize_correct_witness :
    (sampleArray.cutToSize 2 = .error .invalid_argument ↔ sampleArray.size < 2)
      ∧ (2 ≤ sampleArray.size → ∃ b1, sampleArray.cutToSize 2 = .ok b1 ∧ b1.size = 2
          ∧ ∀ (s : Bool) (i : Nat), i < 2 → b1.get s i = sampleArray.get s i) :=
  cutToSize_correct sampleArray 2 rfl (by decide) (by decide) (by decide) (by decide)
    (by decide)

/-! ### C20 : `removeTrailingZeros` -/

/-- C20. On a finalized `BaseArray` satisfying the window invariant, `removeTrailingZeros`
returns a count `k` such that the `k` lowest digits before the call were all zero, the
new `size()` is the old `size()` minus `k`, for every `i` below the new size the digit at
`i` equals the old digit at `i + k`, and if the new size is non-zero the digit at index 0
is non-zero; the loop terminates for every state: from every state and count it ends
after some `j <= end - startPadding` iterations, returning the count raised by `j` and
`startPadding` raised by `j`, or stopping at a read outside the digit storage. -/
theorem removeTrailingZeros_correct (s : Bool) (b : BaseArray) (hfin : b.finalized = true)
    (hinv : b.windowInvariant) :
    (∃ (k : Nat) (b1 : BaseArray), b.removeTrailingZeros s = .ok (k, b1)
        ∧ (∀ i : Nat, i < k → b.get s i = .ok 0)
        ∧ k ≤ b.size ∧ b1.size = b.size - k
        ∧ (∀ i : Nat, i < b1.size → b1.get s i = b.get s (i + k))
        ∧ (b1.size ≠ 0 → ∃ d, b1.get s 0 = .ok d ∧ d ≠ 0))
      ∧ (∀ (b0 : BaseArray) (count : Nat), ∃ j : Nat,
          j ≤ (b0.end_ - b0.startPadding).toNat
            ∧ ((∃ b1, BaseArray.removeTrailingZerosLoop s b0 count = .ok (count + j, b1)
                  ∧ b1.startPadding = b0.startPadding + (j : Int) ∧ b1.end_ = b0.end_)
              ∨ (BaseArray.removeTrailingZerosLoop s b0 count = .error .undefined
                  ∧ b0.readStorage s (b0.startPadding + (j : Int)) = .error .undefined))) := by
  constructor
  · obtain ⟨k, b1, hres, hzero, hsize, hget, hnz, _, _⟩ :=
      removeTrailingZeros_spec s b hfin hinv
    exact ⟨k, b1, hres, hzero, by omega, by omega, hget, hnz⟩
  · intro b0 count
    obtain ⟨j, hjm, _, hres⟩ := removeTrailingZerosLoop_spec s _ b0 count rfl
    refine ⟨j, hjm, ?_⟩
    rcases hres with ⟨b1, hb1, g1, _, g3, _, _⟩ | ⟨hb1, _, g2⟩
    · exact Or.inl ⟨b1, hb1, g1, g3⟩
    · exact Or.inr ⟨hb1, g2⟩

theorem removeTrailingZeros_correct_witness :
    (∃ (k : Nat) (b1 : BaseArray), sampleArray.removeTrailingZeros true = .ok (k, b1)
        ∧ (∀ i : Nat, i < k → sampleArray.get true i = .ok 0)
        ∧ k ≤ sampleArray.size ∧ b1.size = sampleArray.size - k
        ∧ (∀ i : Nat, i < b1.size → b1.get true i = sampleArray.get true (i + k))
        ∧ (b1.size ≠ 0 → ∃ d, b1.get true 0 = .ok d ∧ d ≠ 0))
      ∧ wideArray.finalized = true ∧ wideArray.windowInvariant ∧ ¬ wideArray.sizeFitsInt
      ∧ (∃ (k : Nat) (b1 : BaseArray), wideArray.removeTrailingZeros true = .ok (k, b1)
        ∧ (∀ i : Nat, i < k → wideArray.get true i = .ok 0)
        ∧ k ≤ wideArray.size ∧ b1.size = wideArray.size - k
        ∧ (∀ i : Nat, i < b1.size → b1.get true i = wideArray.get true (i + k))
        ∧ (b1.size ≠ 0 → ∃ d, b1.get true 0 = .ok d ∧ d ≠ 0)) :=
  ⟨(removeTrailingZeros_correct true sampleArray rfl (by decide)).1, rfl, by decide,
    by decide, (removeTrailingZeros_correct true wideArray rfl (by decide)).1⟩

/-! ### C21 : `removeLeadingZeros` -/

/-- C21. On a finalized `BaseArray` satisfying the window invariant, `removeLeadingZeros`
returns a count `k` such that the new `size()` is the old `size()` minus `k`, every digit
below the new size is unchanged, and if the new size is non-zero its highest digit is
non-zero; when every digit of the array is zero the array becomes the canonical empty
array with `startPadding = startNumbers = end = 0` and `k` equals the old `size()`. -/
theorem removeLeadingZeros_correct (s : Bool) (b : BaseArray) (hfin : b.finalized = true)
    (hinv : b.windowInvariant) :
    ∃ (k : Nat) (b1 : BaseArray), b.removeLeadingZeros s = .ok (k, b1)
      ∧ k ≤ b.size ∧ b1.size = b.size - k
      ∧ (∀ i : Nat, i < b1.size → b1.get s i = b.get s i)
      ∧ (b1.size ≠ 0 → ∃ d, b1.get s (b1.size - 1) = .ok d ∧ d ≠ 0)
      ∧ ((∀ i : Nat, i < b.size → b.get s i = .ok 0) →
          b1.startPadding = 0 ∧ b1.startNumbers = 0 ∧ b1.end_ = 0 ∧ k = b.size) := by
  obtain ⟨k, b1, hres, hk, hsize, hget, hnz, hall, _, _⟩ :=
    removeLeadingZeros_spec s b hfin hinv
  exact ⟨k, b1, hres, hk, hsize, hget, hnz, hall⟩

theorem removeLeadingZeros_correct_witness :
    (∃ (k : Nat) (b1 : BaseArray), sampleArray.removeLeadingZeros true = .ok (k, b1)
      ∧ k ≤ sampleArray.size ∧ b1.size = sampleArray.size - k
      ∧ (∀ i : Nat, i < b1.size → b1.get true i = sampleArray.get true i)
      ∧ (b1.size ≠ 0 → ∃ d, b1.get true (b1.size - 1) = .ok d ∧ d ≠ 0)
      ∧ ((∀ i : Nat, i < sampleArray.size → sampleArray.get true i = .ok 0) →
          b1.startPadding = 0 ∧ b1.startNumbers = 0 ∧ b1.end_ = 0 ∧ k = sampleArray.size))
      ∧ wideArray.finalized = true ∧ wideArray.windowInvariant ∧ ¬ wideArray.sizeFitsInt
      ∧ (∃ (k : Nat) (b1 : BaseArray), wideArray.removeLeadingZeros true = .ok (k, b1)
      ∧ k ≤ wideArray.size ∧ b1.size = wideArray.size - k
      ∧ (∀ i : Nat, i < b1.size → b1.get true i = wideArray.get true i)
      ∧ (b1.size ≠ 0 → ∃ d, b1.get true (b1.size - 1) = .ok d ∧ d ≠ 0)
      ∧ ((∀ i : Nat, i < wideArray.size → wideArray.get true i = .ok 0) →
          b1.startPadding = 0 ∧ b1.startNumbers = 0 ∧ b1.end_ = 0 ∧ k = wideArray.size)) :=
  ⟨removeLeadingZeros_correct true sampleArray rfl (by decide), rfl, by decide, by decide,
    removeLeadingZeros_correct true wideArray rfl (by decide)⟩

/-! ### C22 : `operator[]` -/

/-- C22, as stated, fails when `startPadding + index` leaves the range of `int`. On
`offsetArray` (`startPadding = startNumbers = 2`, `end = 5`, `size() = 3`)
`operator[](2147483647)` computes `2 + 2147483647` in `int`, which wraps to
`-2147483647 < startNumbers`, and returns `0` instead of raising `out_of_range`; on the
empty array (`size() = 0`) `operator[](4294967295)` casts the index to `-1` and returns
`0` as well. -/
theorem get_counterexample :
    offsetArray.windowInvariant ∧ offsetArray.size = 3 ∧ 2147483647 ≥ offsetArray.size
      ∧ offsetArray.get true 2147483647 = .ok 0
      ∧ offsetArray.get true 2147483647 ≠ .error .out_of_range
      ∧ emptyArray.windowInvariant ∧ emptyArray.size = 0 ∧ 4294967295 ≥ emptyArray.size
      ∧ emptyArray.get true 4294967295 = .ok 0
      ∧ emptyArray.get false 4294967295 = .ok 0
      ∧ emptyArray.get true 4294967295 ≠ .error .out_of_range := by
  decide

/-- C22, amended. On a `BaseArray` satisfying `startPadding <= startNumbers <= end <=
m_digits_size` and `0 <= startNumbers` (exceptions enabled), and for an index with
`startPadding + index <= INT_MAX`, `operator[](index)` raises `out_of_range` if and only
if `index >= size()`; for `index < size()` it returns `0` when `index < startNumbers -
startPadding` and otherwise reads the stored digit at position `startPadding + index`,
which lies inside the digit storage `[0, m_digits_size)`, so that the read is defined. -/
theorem get_correct (s : Bool) (b : BaseArray) (index : Nat) (hinv : b.windowInvariant)
    (hidx : b.startPadding + (index : Int) < 2 ^ 31) :
    (b.get s index = .error .out_of_range ↔ index ≥ b.size)
      ∧ (index < b.size → (index : Int) < b.startNumbers - b.startPadding →
          b.get s index = .ok 0)
      ∧ (index < b.size → ¬ (index : Int) < b.startNumbers - b.startPadding →
          b.get s index = b.readStorage s (b.startPadding + (index : Int))
            ∧ 0 ≤ b.startPadding + (index : Int)
            ∧ b.startPadding + (index : Int) < (b.m_digits_size : Int)
            ∧ ∃ d, b.get s index = .ok d) := by
  obtain ⟨h0, h1, h2, h3⟩ := hinv
  have hsz := size_cast b (by omega)
  have htemp := get_temp b index hidx
  have hlow : ∀ (_ : (index : Int) < b.startNumbers - b.startPadding),
      b.get s index = .ok 0 := by
    intro h
    rw [get_eq, htemp, if_pos (by omega)]
  have hmid : ∀ (_ : ¬ (index : Int) < b.startNumbers - b.startPadding) (_ : index < b.size),
      b.get s index = b.readStorage s (b.startPadding + (index : Int)) := by
    intro h hlt
    rw [get_eq, htemp, if_neg (by omega), if_neg (by omega)]
  refine ⟨⟨?_, ?_⟩, ?_, ?_⟩
  · intro herr
    by_contra hcon
    have hlt : index < b.size := by omega
    by_cases h : (index : Int) < b.startNumbers - b.startPadding
    · rw [hlow h] at herr
      exact Except.noConfusion herr
    · obtain ⟨d, hd⟩ := readStorage_defined s b (b.startPadding + (index : Int))
        (by omega) (by omega)
      rw [hmid h hlt, hd] at herr
      exact Except.noConfusion herr
  · intro hge
    rw [get_eq, htemp, if_neg (by omega), if_pos (by omega)]
  · intro _ h
    exact hlow h
  · intro hlt h
    obtain ⟨d, hd⟩ := readStorage_defined s b (b.startPadding + (index : Int))
      (by omega) (by omega)
    exact ⟨hmid h hlt, by omega, by omega, d, by rw [hmid h hlt, hd]⟩

theorem get_correct_witness :
    (wideArray.get true 2147483648 = .ok 5)
      ∧ (wideArray.get true 2147483649 = .error .out_of_range ↔ 2147483649 ≥ wideArray.size)
      ∧ (sampleArray.get true 5 = .error .out_of_range ↔ 5 ≥ sampleArray.size) :=
  ⟨by
      obtain ⟨d, hd⟩ := ((get_correct true wideArray 2147483648 (by decide) (by decide)).2.2
        (by decide) (by decide)).2.2.2
      rw [hd]
      have h := ((get_correct true wideArray 2147483648 (by decide) (by decide)).2.2
        (by decide) (by decide)).1
      rw [hd] at h
      rw [h]
      rfl,
    (get_correct true wideArray 2147483649 (by decide) (by decide)).1,
    (get_correct true sampleArray 5 (by decide) (by decide)).1⟩

/-! ### C23 : `shiftLeft` and `shiftRight` -/

/-- C23, as stated, fails when `startPadding - i` leaves the range of `int`: on the
finalized array `sampleArray` (`startPadding = -3`, `startNumbers = 0`, `end = 5`)
`shiftLeft(2147483647)` wraps `startPadding` to `2147483646`, after which the digit at
index 0 is not `0` but out of range; likewise on the finalized empty array
`shiftLeft(4294967295)` casts `i` to `-1` and moves `startPadding` up to `1`. -/
theorem shiftLeft_counterexample :
    sampleArray.finalized = true
      ∧ sampleArray.startPadding ≤ sampleArray.startNumbers
      ∧ sampleArray.startNumbers ≤ sampleArray.end_
      ∧ (∃ b1, sampleArray.shiftLeft 2147483647 = .ok b1
          ∧ b1.startPadding = 2147483646
          ∧ b1.get true 0 = .error .out_of_range
          ∧ b1.get true 0 ≠ .ok 0)
      ∧ emptyArray.finalized = true
      ∧ emptyArray.startPadding ≤ emptyArray.startNumbers
      ∧ emptyArray.startNumbers ≤ emptyArray.end_
      ∧ ∃ b1, emptyArray.shiftLeft 4294967295 = .ok b1
          ∧ b1.startPadding = 1
          ∧ b1.get true 0 = .error .out_of_range
          ∧ b1.get true 0 ≠ .ok 0 := by
  refine ⟨rfl, by decide, by decide, ⟨_, rfl, by decide, by decide, by decide⟩,
    rfl, by decide, by decide, _, rfl, by decide, by decide, by decide⟩

/-- C23, amended. For every finalized `BaseArray` satisfying `startPadding <=
startNumbers <= end` and every `i`, `shiftLeft(i)` followed by `shiftRight(i)` restores
`startPadding`, `startNumbers` and `end` (the whole array) to their original values;
whereas `shiftLeft(i)` alone, for every `i` with `startPadding - i >= INT_MIN`, makes
`size()` grow by `i` with the `i` lowest digits reading `0` and the digit at `j + i`
equal to the old digit at `j`. -/
theorem shift_correct (b : BaseArray) (i : Nat) (hfin : b.finalized = true)
    (h1 : b.startPadding ≤ b.startNumbers) (h2 : b.startNumbers ≤ b.end_) :
    (∃ b1, b.shiftLeft i = .ok b1 ∧ b1.shiftRight i = .ok b)
      ∧ (-2 ^ 31 ≤ b.startPadding - (i : Int) →
          ∃ b1, b.shiftLeft i = .ok b1 ∧ b1.size = b.size + i
            ∧ (∀ (s : Bool) (j : Nat), j < i → b1.get s j = .ok 0)
            ∧ (∀ (s : Bool) (j : Nat), j < b.size → b1.get s (j + i) = b.get s j)) := by
  obtain ⟨b1, hb1, g1, g2, g3, g4⟩ := shiftLeft_fields b i hfin
  have he := b.end_int
  have hsp := b.startPadding_int
  unfold isInt at he hsp
  constructor
  · exact ⟨b1, hb1, shiftRight_after_shiftLeft b b1 i hfin h1 h2 g1 g2 g3 g4⟩
  · intro hi
    rw [wrapInt_of_isInt _ hi (by omega)] at g1
    have hsz := size_cast b (by omega)
    have hsz1 := size_cast b1 (by omega)
    refine ⟨b1, hb1, by omega, ?_, ?_⟩
    · intro s j hj
      rw [get_eq, get_temp b1 j (by omega), if_pos (by omega)]
    · intro s j hj
      have e : b1.startPadding + ((j + i : Nat) : Int) = b.startPadding + (j : Int) := by
        push_cast; omega
      rw [get_eq, get_eq, get_temp b1 (j + i) (by omega), get_temp b j (by omega), e,
        readStorage_congr s b1 b g4, g2, g3]

theorem shift_correct_witness :
    (∃ b1, sampleArray.shiftLeft 4 = .ok b1 ∧ b1.shiftRight 4 = .ok sampleArray)
      ∧ (∃ b1, sampleArray.shiftLeft 4294967295 = .ok b1
          ∧ b1.shiftRight 4294967295 = .ok sampleArray)
      ∧ ∃ b1, sampleArray.shiftLeft 4 = .ok b1 ∧ b1.size = sampleArray.size + 4
          ∧ (∀ (s : Bool) (j : Nat), j < 4 → b1.get s j = .ok 0)
          ∧ (∀ (s : Bool) (j : Nat), j < sampleArray.size →
              b1.get s (j + 4) = sampleArray.get s j) :=
  ⟨(shift_correct sampleArray 4 rfl (by decide) (by decide)).1,
    (shift_correct sampleArray 4294967295 rfl (by decide) (by decide)).1,
    (shift_correct sampleArray 4 rfl (by decide) (by decide)).2 (by decide)⟩

end CAStle
